import Mathlib

/-!
Verification development for the hls repository core:
the per-track fMP4 fragment builder (internal/fmp4/makefragment.go),
the fragment multiplexer (writeFragment), and the HLS Segment object
(internal/segment/segment.go) with its filename codec and playlist
renderer.  Machine integers are modelled as Nat with explicit
reductions modulo 2^32 / 2^64 where the Go code performs conversions.
-/

/-- Reduction modulo 2^32, modelling Go uint32 conversion. -/
def u32 (n : Nat) : Nat := n % 4294967296

/-- Reduction modulo 2^64, modelling Go uint64 arithmetic. -/
def u64 (n : Nat) : Nat := n % 18446744073709551616

/-- Big-endian 4-byte encoding of a 32-bit value (pio.PutU32BE). -/
def u32be (v : Nat) : List Nat :=
  [v / 16777216 % 256, v / 65536 % 256, v / 256 % 256, v % 256]

/-- Big-endian 8-byte encoding of a 64-bit value. -/
def u64be (v : Nat) : List Nat := u32be (v / 4294967296) ++ u32be v

/-- Big-endian 4-byte two's-complement encoding of a signed 32-bit value. -/
def s32be (v : Int) : List Nat := u32be (v % 4294967296).toNat

/-- Read back a big-endian 32-bit value from a byte list at offset k
(missing bytes read as 0). -/
def readU32BE (l : List Nat) (k : Nat) : Nat :=
  l.getD k 0 * 16777216 + l.getD (k+1) 0 * 65536 + l.getD (k+2) 0 * 256 + l.getD (k+3) 0

/-! ## fmp4io box model

Modelled from the spec: the fmp4io package is not part of the shown
source; the spec treats it as a black-box binary encoder that
serializes a box tree to a byte buffer and reports its encoded length
(spec section 1), with the track-fragment box fields enumerated in
spec section 6.  The flag constants below are the standard ISO-BMFF
tfhd/trun flag bits the shown code manipulates. -/

/-- Modelled from the spec: sample-dependency flag for independent samples. -/
def sampleNoDependencies : Nat := 0x2000000

/-- Modelled from the spec: sample-dependency flag for non-keyframe samples. -/
def sampleNonKeyframe : Nat := 0x1010000

/-- Modelled from the spec: tfhd flag, base data offset is the moof start. -/
def trackFragDefaultBaseIsMOOF : Nat := 0x020000

/-- Modelled from the spec: tfhd flag, uniform default sample duration present. -/
def trackFragDefaultDuration : Nat := 0x000008

/-- Modelled from the spec: tfhd flag, uniform default sample size present. -/
def trackFragDefaultSize : Nat := 0x000010

/-- Modelled from the spec: tfhd flag, uniform default sample flags present. -/
def trackFragDefaultFlags : Nat := 0x000020

/-- Modelled from the spec: trun flag, data-offset field present. -/
def trackRunDataOffset : Nat := 0x000001

/-- Modelled from the spec: trun flag, first-sample-flags override present. -/
def trackRunFirstSampleFlags : Nat := 0x000004

/-- Modelled from the spec: trun flag, per-sample duration present. -/
def trackRunSampleDuration : Nat := 0x000100

/-- Modelled from the spec: trun flag, per-sample size present. -/
def trackRunSampleSize : Nat := 0x000200

/-- Modelled from the spec: trun flag, per-sample flags present. -/
def trackRunSampleFlags : Nat := 0x000400

/-- Modelled from the spec: trun flag, per-sample composition offset present. -/
def trackRunSampleCTS : Nat := 0x000800

/-- Modelled from the spec: the mdat box type tag. -/
def mdatTag : Nat := 0x6d646174

/-- Modelled from the spec: track-fragment header box (tfhd) fields. -/
structure TrackFragHeader where
  flags : Nat := 0
  trackID : Nat := 0
  defaultDuration : Nat := 0
  defaultSize : Nat := 0
  defaultFlags : Nat := 0
deriving DecidableEq, Inhabited

/-- Modelled from the spec: track-fragment decode-time box (tfdt) fields. -/
structure TrackFragDecodeTime where
  version : Nat := 0
  time : Nat := 0
deriving DecidableEq, Inhabited

/-- Modelled from the spec: one sample entry of a track-fragment run. -/
structure TrackFragRunEntry where
  duration : Nat := 0
  flags : Nat := 0
  size : Nat := 0
  cts : Int := 0
deriving DecidableEq, Inhabited

/-- Modelled from the spec: track-fragment run box (trun) fields. -/
structure TrackFragRun where
  version : Nat := 0
  flags : Nat := 0
  dataOffset : Nat := 0
  firstSampleFlags : Nat := 0
  entries : List TrackFragRunEntry := []
deriving DecidableEq, Inhabited

/-- Modelled from the spec: track-fragment box (traf) with its children. -/
structure TrackFrag where
  header : TrackFragHeader := default
  decodeTime : TrackFragDecodeTime := default
  run : TrackFragRun := default
deriving DecidableEq, Inhabited

/-- Modelled from the spec: movie-fragment header box (mfhd). -/
structure MovieFragHeader where
  seqnum : Nat := 0
deriving DecidableEq, Inhabited

/-- Modelled from the spec: movie-fragment box (moof). -/
structure MovieFrag where
  header : MovieFragHeader := default
  tracks : List TrackFrag := []
deriving DecidableEq, Inhabited

/-- Modelled from the spec: a plain box is a 4-byte size (covering the
whole box), a 4-byte type tag, and the body. -/
def boxBytes (tag : Nat) (body : List Nat) : List Nat :=
  u32be (8 + body.length) ++ u32be tag ++ body

/-- Modelled from the spec: a full box additionally carries a version
byte and 3 flag bytes. -/
def fullBoxBytes (tag : Nat) (ver : Nat) (flags : Nat) (body : List Nat) : List Nat :=
  u32be (12 + body.length) ++ u32be tag ++ u32be (ver * 16777216 + flags % 16777216) ++ body

/-- Modelled from the spec: mfhd serialization (sequence number). -/
def mfhdBytes (h : MovieFragHeader) : List Nat :=
  fullBoxBytes 0x6d666864 0 0 (u32be h.seqnum)

/-- Modelled from the spec: tfhd serialization; optional default fields
are present exactly when the corresponding flag bit is set. -/
def tfhdBytes (h : TrackFragHeader) : List Nat :=
  fullBoxBytes 0x74666864 0 h.flags
    (u32be h.trackID
      ++ (if h.flags.testBit 3 then u32be h.defaultDuration else [])
      ++ (if h.flags.testBit 4 then u32be h.defaultSize else [])
      ++ (if h.flags.testBit 5 then u32be h.defaultFlags else []))

/-- Modelled from the spec: tfdt serialization; version 1 stores a
64-bit decode time. -/
def tfdtBytes (d : TrackFragDecodeTime) : List Nat :=
  fullBoxBytes 0x74666474 d.version 0
    (if d.version = 1 then u64be d.time else u32be d.time)

/-- Modelled from the spec: per-sample fields of a run entry, present
exactly when the corresponding run flag bit is set; composition
offsets are signed in the version-1 encoding. -/
def entryBytes (runFlags : Nat) (ver : Nat) (e : TrackFragRunEntry) : List Nat :=
  (if runFlags.testBit 8 then u32be e.duration else [])
    ++ (if runFlags.testBit 9 then u32be e.size else [])
    ++ (if runFlags.testBit 10 then u32be e.flags else [])
    ++ (if runFlags.testBit 11 then
          (if ver = 1 then s32be e.cts else u32be e.cts.toNat) else [])

/-- Modelled from the spec: trun serialization with sample count, then
the optional data-offset and first-sample-flags fields, then the
per-sample entries. -/
def trunBytes (r : TrackFragRun) : List Nat :=
  fullBoxBytes 0x7472756e r.version r.flags
    (u32be r.entries.length
      ++ (if r.flags.testBit 0 then u32be r.dataOffset else [])
      ++ (if r.flags.testBit 2 then u32be r.firstSampleFlags else [])
      ++ (r.entries.map (entryBytes r.flags r.version)).flatten)

/-- Modelled from the spec: traf serialization (tfhd, tfdt, trun children). -/
def trafBytes (t : TrackFrag) : List Nat :=
  boxBytes 0x74726166 (tfhdBytes t.header ++ tfdtBytes t.decodeTime ++ trunBytes t.run)

/-- Modelled from the spec: moof serialization (mfhd then one traf per track). -/
def moofBytes (m : MovieFrag) : List Nat :=
  boxBytes 0x6d6f6f66 (mfhdBytes m.header ++ (m.tracks.map trafBytes).flatten)

/-- Modelled from the spec: the black-box encoder reports the encoded
length of a box tree (moof.Len in the source). -/
def moofLen (m : MovieFrag) : Nat := (moofBytes m).length

/-! ## timescale model -/

/-- Modelled from the spec: ToScale rescales a duration (nanosecond
ticks, the Go time.Duration unit) into integer ticks of the target
timescale, monotonically. -/
def ToScale (t : Nat) (scale : Nat) : Nat := t * scale / 1000000000

/-- Modelled from the spec: Relative performs the same rescale for a
signed composition-time offset, preserving sign (Go integer division
truncates toward zero). -/
def Relative (t : Int) (scale : Nat) : Int := Int.tdiv (t * scale) 1000000000

/-! ## av.Packet and the track fragmenter -/

/-- Model of the external joy4 av.Packet as used by the source: decode
time and composition offset in nanosecond ticks, keyframe flag, and
the opaque payload bytes. -/
structure Packet where
  time : Nat := 0
  compositionTime : Int := 0
  isKeyFrame : Bool := false
  data : List Nat := []
deriving DecidableEq, Inhabited

/-- State of a TrackFragmenter as used by makeFragment: track id,
target timescale, whether the codec is video, and the pending
not-yet-emitted packets. -/
structure TrackFragmenter where
  trackID : Nat := 0
  timeScale : Nat := 0
  isVideo : Bool := false
  pending : List Packet := []
deriving DecidableEq, Inhabited

/-- One fragment's metadata plus the packets whose payload it describes
(fragmentWithData in the source). -/
structure fragmentWithData where
  trackFrag : TrackFrag := default
  packets : List Packet := []
deriving DecidableEq, Inhabited

/-- The per-sample loop body of makeFragment (source lines 45-93),
processing pending packets with one-packet lookahead: builds each run
entry, folds the default duration/size/flags state, and accumulates
composition-time flags.  The index i mirrors the Go loop variable. -/
def makeFragmentLoop (scale defFlags : Nat) :
    Nat → Nat → List Packet → TrackFrag → TrackFrag
  | _, _, [], track => track
  | _, _, [_], track => track
  | i, curDTS, pkt :: next :: rest, track =>
    let nextDTS := u64 (ToScale next.time scale)
    let entry0 : TrackFragRunEntry :=
      { duration := u32 ((nextDTS + 18446744073709551616 - curDTS) % 18446744073709551616)
        flags := if pkt.isKeyFrame then sampleNoDependencies else defFlags
        size := u32 pkt.data.length
        cts := 0 }
    let track1 :=
      if i = 0 then
        { track with
          header := { track.header with
            defaultDuration := entry0.duration
            defaultSize := entry0.size
            defaultFlags := entry0.flags }
          run := { track.run with firstSampleFlags := entry0.flags } }
      else
        { track with header := { track.header with
            defaultDuration :=
              if entry0.duration ≠ track.header.defaultDuration then 0
              else track.header.defaultDuration
            defaultSize :=
              if entry0.size ≠ track.header.defaultSize then 0
              else track.header.defaultSize
            defaultFlags :=
              if i = 1 then entry0.flags
              else if entry0.flags ≠ track.header.defaultFlags then 0
              else track.header.defaultFlags } }
    let step :=
      if pkt.compositionTime ≠ 0 then
        let relCTS := Relative pkt.compositionTime scale
        ({ entry0 with cts := relCTS },
         { track1 with run := { track1.run with
             flags := track1.run.flags ||| trackRunSampleCTS
             version := if relCTS < 0 then 1 else track1.run.version } })
      else (entry0, track1)
    let track3 :=
      { step.2 with run := { step.2.run with entries := step.2.run.entries ++ [step.1] } }
    makeFragmentLoop scale defFlags (i+1) nextDTS (next :: rest) track3

/-- The post-loop default/per-sample flag selection of makeFragment
(source lines 94-115): each of size, duration and flags either
declares its surviving header default or marks the run as carrying the
field per sample; a surviving flags default additionally gets a
first-sample-flags override when sample 0's flags differ from it. -/
def postFlags (t1 : TrackFrag) : TrackFrag :=
  let t2 :=
    if t1.header.defaultSize ≠ 0 then
      { t1 with header := { t1.header with flags := t1.header.flags ||| trackFragDefaultSize } }
    else
      { t1 with run := { t1.run with flags := t1.run.flags ||| trackRunSampleSize } }
  let t3 :=
    if t2.header.defaultDuration ≠ 0 then
      { t2 with header := { t2.header with flags := t2.header.flags ||| trackFragDefaultDuration } }
    else
      { t2 with run := { t2.run with flags := t2.run.flags ||| trackRunSampleDuration } }
  if t3.header.defaultFlags ≠ 0 then
    let t4a := { t3 with header := { t3.header with flags := t3.header.flags ||| trackFragDefaultFlags } }
    if t4a.run.firstSampleFlags ≠ t4a.header.defaultFlags then
      { t4a with run := { t4a.run with flags := t4a.run.flags ||| trackRunFirstSampleFlags } }
    else t4a
  else
    { t3 with run := { t3.run with flags := t3.run.flags ||| trackRunSampleFlags } }

/-- makeFragment (source lines 17-122): requires at least 2 pending
packets, otherwise returns no fragment and leaves the state unchanged;
builds the track-fragment metadata via the sample loop, then applies
the post-loop default/per-sample flag selection (source lines 94-115),
returns the consumed packets, and resets pending to the lookahead
packet. -/
def makeFragment (f : TrackFragmenter) : Option fragmentWithData × TrackFragmenter :=
  if f.pending.length < 2 then (none, f)
  else
    let entryCount := f.pending.length - 1
    let startTime := (f.pending.getD 0 default).time
    let startDTS := u64 (ToScale startTime f.timeScale)
    let defFlags := if f.isVideo then sampleNonKeyframe else sampleNoDependencies
    let track0 : TrackFrag :=
      { header := { flags := trackFragDefaultBaseIsMOOF, trackID := f.trackID }
        decodeTime := { version := 1, time := startDTS }
        run := { flags := trackRunDataOffset } }
    let t1 := makeFragmentLoop f.timeScale defFlags 0 startDTS f.pending track0
    (some { trackFrag := postFlags t1, packets := f.pending.take entryCount },
     { f with pending := [f.pending.getD entryCount default] })

/-- Consecutive packet pairs (each packet with its lookahead successor). -/
def pairsOf (ps : List Packet) : List (Packet × Packet) := ps.zip ps.tail

/-- The run entry makeFragment builds for one packet and its lookahead
successor, written as a function of the pair (the loop's curDTS equals
the scaled time of the current packet). -/
def entryOf (scale defFlags : Nat) (pr : Packet × Packet) : TrackFragRunEntry :=
  { duration := u32 ((u64 (ToScale pr.2.time scale) + 18446744073709551616
      - u64 (ToScale pr.1.time scale)) % 18446744073709551616)
    flags := if pr.1.isKeyFrame then sampleNoDependencies else defFlags
    size := u32 pr.1.data.length
    cts := if pr.1.compositionTime ≠ 0 then Relative pr.1.compositionTime scale else 0 }

/-! ## writeFragment (the fragment multiplexer) -/

/-- Total payload byte count of one track's packets. -/
def payloadLen (t : fragmentWithData) : Nat := (t.packets.map fun pkt => pkt.data.length).sum

/-- Concatenated payload bytes of one track's packets, in packet order. -/
def payloadBytes (t : fragmentWithData) : List Nat := (t.packets.map fun pkt => pkt.data).flatten

/-- The data-offset assignment loop of writeFragment (source lines
137-143): walks tracks in order, assigns each run's data offset the
running cumulative offset, and advances it by the track's payload
bytes; returns the updated track boxes and the final offset. -/
def assignLoop (dataOffset : Nat) : List fragmentWithData → List TrackFrag × Nat
  | [] => ([], dataOffset)
  | t :: rest =>
    let t1 := { t.trackFrag with run := { t.trackFrag.run with dataOffset := u32 dataOffset } }
    let r := assignLoop (dataOffset + payloadLen t) rest
    (t1 :: r.1, r.2)

/-- writeFragment (source lines 124-162): builds the moof with one
track box per input, computes dataBase = moof length + 8, assigns
track data offsets, serializes the moof followed by the 8-byte mdat
header, then emits every track's payload.  The returned MovieFrag
records the final state of the (shared) track boxes, including the
post-serialization data-offset reassignment performed by the second
loop of the source (line 154), which touches the boxes but not the
emitted bytes. -/
def writeFragment (tracks : List fragmentWithData) (seqNum : Nat) : List Nat × MovieFrag :=
  let moof0 : MovieFrag := { header := { seqnum := u32 seqNum }, tracks := tracks.map fun t => t.trackFrag }
  let dataBase := moofLen moof0 + 8
  let asn := assignLoop dataBase tracks
  let moof1 : MovieFrag := { moof0 with tracks := asn.1 }
  let b := moofBytes moof1 ++ u32be (u32 (asn.2 - dataBase + 8)) ++ u32be mdatTag
  let out := b ++ (tracks.map payloadBytes).flatten
  let moof2 : MovieFrag :=
    { moof1 with tracks := asn.1.map fun t => { t with run := { t.run with dataOffset := u32 asn.2 } } }
  (out, moof2)

/-- Modelled from the spec: writeFragment exactly as spec section 4.3
steps 1-5 describe it, without the post-serialization data-offset
reassignment that the spec's open question flags as dead code. -/
def writeFragmentSpec (tracks : List fragmentWithData) (seqNum : Nat) : List Nat × MovieFrag :=
  let moof0 : MovieFrag := { header := { seqnum := u32 seqNum }, tracks := tracks.map fun t => t.trackFrag }
  let dataBase := moofLen moof0 + 8
  let asn := assignLoop dataBase tracks
  let moof1 : MovieFrag := { moof0 with tracks := asn.1 }
  let b := moofBytes moof1 ++ u32be (u32 (asn.2 - dataBase + 8)) ++ u32be mdatTag
  let out := b ++ (tracks.map payloadBytes).flatten
  (out, moof1)

/-- The moof as it is serialized by writeFragment: header plus the
track boxes with their data offsets assigned. -/
def moofAssigned (tracks : List fragmentWithData) (seqNum : Nat) : MovieFrag :=
  { header := { seqnum := u32 seqNum }
    tracks := (assignLoop (moofLen { header := { seqnum := u32 seqNum }, tracks := tracks.map fun t => t.trackFrag } + 8) tracks).1 }

/-- dataBase of a writeFragment call: encoded moof length plus the
8-byte mdat header. -/
def dataBaseOf (tracks : List fragmentWithData) (seqNum : Nat) : Nat :=
  moofLen { header := { seqnum := u32 seqNum }, tracks := tracks.map fun t => t.trackFrag } + 8

/-- Sum of all tracks' payload byte counts. -/
def sumPayload (tracks : List fragmentWithData) : Nat := (tracks.map payloadLen).sum

/-- Total serialized length of a list of track boxes. -/
def trafListLen (ts : List TrackFrag) : Nat := (ts.map fun t => (trafBytes t).length).sum

/-- Byte position, inside a serialized moof, of track i's trun
data-offset field: past the moof header (8), the mfhd, the earlier
traf boxes, this traf's header (8), its tfhd and tfdt, and the trun's
leading 16 bytes (size, tag, version/flags, sample count). -/
def dataOffsetPos (m : MovieFrag) (i : Nat) : Nat :=
  8 + (mfhdBytes m.header).length + trafListLen (m.tracks.take i)
    + 8 + (tfhdBytes (m.tracks.getD i default).header).length
    + (tfdtBytes (m.tracks.getD i default).decodeTime).length + 16

/-! ## strconv model (Go strconv.FormatInt / strconv.ParseInt) -/

/-- Go strconv digit characters: 0-9 then lowercase a-z. -/
def digitChar (v : Nat) : Char :=
  if v < 10 then Char.ofNat (48 + v) else Char.ofNat (87 + v)

/-- Digits of n in base b, most significant first (Go strconv.FormatUint). -/
def natToBase (b n : Nat) : List Char :=
  if n < b ∨ b ≤ 1 then [digitChar n]
  else natToBase b (n / b) ++ [digitChar (n % b)]
termination_by n
decreasing_by
  refine Nat.div_lt_self ?_ ?_ <;> omega

/-- Go strconv.FormatInt: minus sign for negatives, then base-b digits. -/
def FormatIntGo (i : Int) (base : Nat) : List Char :=
  if i < 0 then '-' :: natToBase base i.natAbs else natToBase base i.toNat

/-- Value of one digit character as Go strconv accepts it: 0-9,
lowercase and uppercase letters. -/
def digitVal (c : Char) : Option Nat :=
  if '0' ≤ c ∧ c ≤ '9' then some (c.toNat - 48)
  else if 'a' ≤ c ∧ c ≤ 'z' then some (c.toNat - 87)
  else if 'A' ≤ c ∧ c ≤ 'Z' then some (c.toNat - 55)
  else none

/-- Accumulating digit parser: fails on any character that is not a
digit of the base. -/
def parseDigits (base : Nat) : List Char → Nat → Option Nat
  | [], acc => some acc
  | c :: rest, acc =>
    match digitVal c with
    | none => none
    | some v => if v < base then parseDigits base rest (acc * base + v) else none

/-- Go strconv.ParseInt with the given base and bit size: optional
sign, at least one digit, every character a digit of the base, and the
value within the signed range (out-of-range input is an error). -/
def ParseIntGo (base bitSize : Nat) (s : List Char) : Option Int :=
  match s with
  | [] => none
  | c :: rest =>
    let digits := if c = '-' ∨ c = '+' then rest else s
    if digits = [] then none
    else match parseDigits base digits 0 with
      | none => none
      | some n =>
        if c = '-' then (if n ≤ 2 ^ (bitSize - 1) then some (-(n : Int)) else none)
        else (if n ≤ 2 ^ (bitSize - 1) - 1 then some (n : Int) else none)

/-- Go strings.Split with the single-character separator dot. -/
def splitOnDot : List Char → List (List Char)
  | [] => [[]]
  | c :: cs =>
    if c = '.' then [] :: splitOnDot cs
    else match splitOnDot cs with
      | [] => [[c]]
      | h :: t => (c :: h) :: t

/-- ParseName (source lines 56-75): split on dots, require 2 or 3
components ending in the literal m4s, parse the id in base 36; with 3
components parse the part index in base 10, otherwise part is -1. -/
def ParseName (name : List Char) : Int × Int × Bool :=
  let segs := splitOnDot name
  if segs.length < 2 ∨ 3 < segs.length ∨ segs.getLastD [] ≠ ['m', '4', 's'] then (0, 0, false)
  else
    match ParseIntGo 36 64 (segs.getD 0 []) with
    | none => (0, 0, false)
    | some id =>
      if segs.length = 3 then
        match ParseIntGo 10 64 (segs.getD 1 []) with
        | none => (id, 0, false)
        | some pt => (id, pt, true)
      else (id, -1, true)

/-! ## Segment model -/

/-- Modelled from the spec: fmp4.RawFragment, one part of a segment:
recorded byte length, duration, independent/sync flag, and the raw
bytes (none models the released nil buffer). -/
structure RawFragment where
  length : Nat := 0
  duration : Nat := 0
  independent : Bool := false
  bytes : Option (List Nat) := none
deriving DecidableEq, Inhabited

/-- State of an HLS Segment (source lines 19-33).  The unlinked
temporary file is modelled as an explicit byte store fileBytes with an
open/closed flag; time.Duration fields are nanosecond Ints. -/
structure Segment where
  start : Int := 0
  id : Int := 0
  dcn : Bool := false
  baseName : List Char := []
  programTime : List Char := []
  parts : List RawFragment := []
  fileBytes : List Nat := []
  fileOpen : Bool := true
  final : Bool := false
  size : Int := 0
  dur : Int := 0
deriving DecidableEq, Inhabited

/-- Segment.Append (source lines 78-85), with the backing-store write
outcome made explicit: FIRST the metadata update (parts list and size,
performed under the lock), THEN the file write; the returned Bool is
true when the write succeeded (nil error).  This statement order is
the source's. -/
def Segment.Append (s : Segment) (frag : RawFragment) (writeOk : Bool) : Segment × Bool :=
  let s1 := { s with parts := s.parts ++ [frag], size := s.size + frag.length }
  if writeOk then ({ s1 with fileBytes := s1.fileBytes ++ frag.bytes.getD [] }, true)
  else (s1, false)

/-- Segment.Finalize (source lines 103-115): marks the segment final,
records the duration when the next segment starts later, and drops
every part's in-memory byte buffer. -/
def Segment.Finalize (s : Segment) (nextSegment : Int) : Segment :=
  let s1 := { s with final := true }
  let s2 := if nextSegment > s.start then { s1 with dur := nextSegment - s.start } else s1
  { s2 with parts := s2.parts.map fun p => { p with bytes := none } }

/-- Segment.Release (source lines 118-124): zeroes the size and closes
the backing store. -/
def Segment.Release (s : Segment) : Segment :=
  { s with size := 0, fileOpen := false }

/-- A fresh segment as produced by New (source lines 36-53); the
anonymous temp-file creation is modelled by the empty open store. -/
def Segment.New (id : Int) (start : Int) (dcn : Bool) (programTime : List Char) : Segment :=
  { id := id, start := start, dcn := dcn, baseName := FormatIntGo id 36,
    programTime := programTime }

/-- A sequence of operations applied to a live segment; Append
operations here always succeed (writeOk true). -/
inductive SegOp where
  | appendOp (frag : RawFragment)
  | finalizeOp (next : Int)
deriving DecidableEq, Inhabited

/-- Run a list of segment operations with all backing-store writes
succeeding. -/
def runOps (s : Segment) : List SegOp → Segment
  | [] => s
  | SegOp.appendOp fr :: rest => runOps (Segment.Append s fr true).1 rest
  | SegOp.finalizeOp t :: rest => runOps (Segment.Finalize s t) rest

/-- The segment metadata/store consistency invariant: the recorded
size equals the sum of the recorded part lengths and equals the number
of bytes committed to the backing store. -/
def SegInv (s : Segment) : Prop :=
  s.size = (s.parts.map fun p => (p.length : Int)).sum
    ∧ s.size = (s.fileBytes.length : Int)

/-- The per-operation precondition of the C7 claim: an appended
fragment's recorded length equals the length of its byte buffer. -/
def opLenOk : SegOp → Bool
  | SegOp.appendOp fr => fr.length == (fr.bytes.getD []).length
  | SegOp.finalizeOp _ => true

/-! ## Playlist rendering (Segment.Format) -/

/-- Left-pad a digit string with zeros to six characters. -/
def padZeros6 (cs : List Char) : List Char := List.replicate (6 - cs.length) '0' ++ cs

/-- Model of the Go expression fmt.Sprintf of verb percent-f applied
to Duration.Seconds(): sign, integer seconds, a dot, then exactly six
fractional digits.  The rounding of the nanosecond count to
microseconds is idealized as exact decimal rounding (half away from
zero); the float64 detour in the source can shift low-order digit
values only, never the digit count or layout. -/
def fmtF6 (ns : Int) : List Char :=
  let sign : List Char := if ns < 0 then ['-'] else []
  let micro := (ns.natAbs + 500) / 1000
  sign ++ natToBase 10 (micro / 1000000) ++ '.' :: padZeros6 (natToBase 10 (micro % 1000000))

/-- Model of the Go expression fmt.Sprintf of verb percent-dot-f
applied to Duration.Seconds(): sign and the seconds value rounded to a
whole number, with no decimal point and no fractional digits. -/
def fmtF0 (ns : Int) : List Char :=
  let sign : List Char := if ns < 0 then ['-'] else []
  sign ++ natToBase 10 ((ns.natAbs + 500000000) / 1000000000)

/-- One EXT-X-PART playlist line (source lines 142-143). -/
def partLine (baseName : List Char) (i : Nat) (part : RawFragment) : List Char :=
  "#EXT-X-PART:DURATION=".toList ++ fmtF6 part.duration
    ++ [','] ++ (if part.independent then "INDEPENDENT=YES,".toList else [])
    ++ "URI=\"".toList ++ baseName ++ '.' :: natToBase 10 i ++ ".m4s\"".toList ++ ['\n']

/-- The EXTINF entry of a finalized segment (source line 147). -/
def extinfLines (baseName : List Char) (dur : Int) : List Char :=
  "#EXTINF:".toList ++ fmtF0 dur ++ ",\n".toList ++ baseName ++ ".m4s\n".toList

/-- Segment.Format (source lines 127-149): program time line,
discontinuity line, per-part lines when includeParts, and the EXTINF
entry when finalized. -/
def Segment.Format (s : Segment) (includeParts : Bool) : List Char :=
  (if s.programTime ≠ [] then
    "#EXT-X-PROGRAM-DATE-TIME:".toList ++ s.programTime ++ ['\n'] else [])
  ++ (if s.dcn then "#EXT-X-DISCONTINUITY\n".toList else [])
  ++ (if includeParts then
        ((List.range s.parts.length).map fun i =>
          partLine s.baseName i (s.parts.getD i default)).flatten
      else [])
  ++ (if s.final then extinfLines s.baseName s.dur else [])

/-- A one-track writeFragment input whose single packet carries 2^32
payload bytes; used to exercise the 32-bit truncation of the mdat size
field. -/
def hugeTrack : fragmentWithData :=
  { trackFrag :=
      { header := { flags := trackFragDefaultBaseIsMOOF, trackID := 1 }
        decodeTime := { version := 1, time := 0 }
        run :=
          { flags := trackRunDataOffset
            entries := [{ duration := 1, flags := sampleNoDependencies, size := 0, cts := 0 }] } }
    packets := [{ data := List.replicate 4294967296 0 }] }

/-- A small one-track writeFragment input with a 5-byte payload. -/
def smallTrack : fragmentWithData :=
  { trackFrag :=
      { header := { flags := trackFragDefaultBaseIsMOOF, trackID := 1 }
        decodeTime := { version := 1, time := 0 }
        run :=
          { flags := trackRunDataOffset
            entries := [{ duration := 1, flags := sampleNoDependencies, size := 5, cts := 0 }] } }
    packets := [{ data := [9, 9, 9, 9, 9] }] }

/-! ## C1 -/

/-- C1: the claim requires that a failed Append leave no metadata
visible and that bytes be committed before a new part is observable;
evaluating the source's Append at a failing backing-store write shows
the opposite: the error is returned, yet the part was already appended
to the parts list and counted in totalSize while no byte reached the
backing store (the source updates metadata under the lock before
performing the write and never rolls it back). -/
theorem c1_append_publishes_before_write :
    (Segment.Append (Segment.New 1 0 false [])
        { length := 3, duration := 0, independent := true, bytes := some [1, 2, 3] } false).2 = false
    ∧ (Segment.Append (Segment.New 1 0 false [])
        { length := 3, duration := 0, independent := true, bytes := some [1, 2, 3] } false).1.parts
      = [{ length := 3, duration := 0, independent := true, bytes := some [1, 2, 3] }]
    ∧ (Segment.Append (Segment.New 1 0 false [])
        { length := 3, duration := 0, independent := true, bytes := some [1, 2, 3] } false).1.size = 3
    ∧ (Segment.Append (Segment.New 1 0 false [])
        { length := 3, duration := 0, independent := true, bytes := some [1, 2, 3] } false).1.fileBytes
      = [] := by
  decide

/-! ## C7 -/

theorem runOps_preserves_inv (ops : List SegOp) :
    ∀ s : Segment,
    (∀ op ∈ ops, opLenOk op = true) →
    SegInv s → SegInv (runOps s ops) := by
  induction ops with
  | nil => intro s _ hs; exact hs
  | cons op rest ih =>
    intro s hlen hs
    cases op with
    | appendOp fr =>
      refine ih _ (fun g hg => hlen g (List.mem_cons_of_mem _ hg)) ?_
      have hfr : fr.length = (fr.bytes.getD []).length := by
        have := hlen _ (List.mem_cons_self _ _)
        simpa [opLenOk] using this
      obtain ⟨h1, h2⟩ := hs
      constructor
      · simp [Segment.Append, h1]
      · simp [Segment.Append, h2, hfr]
    | finalizeOp t =>
      refine ih _ (fun g hg => hlen g (List.mem_cons_of_mem _ hg)) ?_
      obtain ⟨h1, h2⟩ := hs
      constructor
      · by_cases hgt : t > s.start <;>
          (simp [Segment.Finalize, hgt, h1, List.map_map, Function.comp]; rfl)
      · by_cases hgt : t > s.start <;> simp [Segment.Finalize, hgt, h2]

/-- C7: after any sequence of successful Append and Finalize calls on
a fresh segment, totalSize equals the sum of the recorded part lengths
and equals the number of bytes committed to the backing store,
provided each appended fragment's length field equals the length of
its bytes; and Finalize preserves totalSize and every recorded part
length while dropping only the in-memory byte buffers. -/
theorem c7_segment_size_invariant (id start : Int) (dcn : Bool) (pt : List Char)
    (ops : List SegOp)
    (hlen : ∀ op ∈ ops, opLenOk op = true) :
    SegInv (runOps (Segment.New id start dcn pt) ops)
    ∧ (∀ (s : Segment) (t : Int),
        (Segment.Finalize s t).size = s.size
        ∧ (Segment.Finalize s t).parts.map (fun p => p.length) = s.parts.map (fun p => p.length)
        ∧ ∀ p ∈ (Segment.Finalize s t).parts, p.bytes = none) := by
  constructor
  · refine runOps_preserves_inv ops _ hlen ?_
    constructor <;> simp [Segment.New]
  · intro s t
    refine ⟨?_, ?_, ?_⟩
    · by_cases hgt : t > s.start <;> simp [Segment.Finalize, hgt]
    · by_cases hgt : t > s.start <;>
        simp [Segment.Finalize, hgt, List.map_map, Function.comp]
    · by_cases hgt : t > s.start <;> intro p hp <;>
        simp [Segment.Finalize, hgt] at hp <;>
        obtain ⟨q, _, hq⟩ := hp <;> simp [← hq]

/-- C7 witness: two successful appends (lengths 3 and 2 matching their
byte buffers) followed by Finalize yield size 5 = sum of part lengths
= bytes in the backing store, and the Finalize clauses hold. -/
theorem c7_segment_size_invariant_witness :
    SegInv (runOps (Segment.New 1 0 false [])
      [SegOp.appendOp { length := 3, duration := 0, independent := true, bytes := some [1, 2, 3] },
       SegOp.appendOp { length := 2, duration := 0, independent := false, bytes := some [4, 5] },
       SegOp.finalizeOp 5])
    ∧ (∀ (s : Segment) (t : Int),
        (Segment.Finalize s t).size = s.size
        ∧ (Segment.Finalize s t).parts.map (fun p => p.length) = s.parts.map (fun p => p.length)
        ∧ ∀ p ∈ (Segment.Finalize s t).parts, p.bytes = none) :=
  c7_segment_size_invariant 1 0 false []
    [SegOp.appendOp { length := 3, duration := 0, independent := true, bytes := some [1, 2, 3] },
     SegOp.appendOp { length := 2, duration := 0, independent := false, bytes := some [4, 5] },
     SegOp.finalizeOp 5]
    (by decide)

/-! ## Helper lemmas: the makeFragment sample loop -/

theorem makeFragmentLoop_entries_length (scale defFlags : Nat) (ps : List Packet) :
    ∀ (i curDTS : Nat) (tr : TrackFrag),
    (makeFragmentLoop scale defFlags i curDTS ps tr).run.entries.length
      = tr.run.entries.length + (ps.length - 1) := by
  induction ps with
  | nil => intro i c tr; simp [makeFragmentLoop]
  | cons p tail ih =>
    intro i c tr
    cases tail with
    | nil => simp [makeFragmentLoop]
    | cons n rest =>
      rw [makeFragmentLoop, ih]
      simp only [List.length_cons]
      by_cases h0 : i = 0 <;> by_cases hc : p.compositionTime = 0 <;>
        simp [h0, hc] <;> omega

theorem pairsOf_cons (p n : Packet) (rest : List Packet) :
    pairsOf (p :: n :: rest) = (p, n) :: pairsOf (n :: rest) := rfl

theorem makeFragmentLoop_entries (scale defFlags : Nat) (ps : List Packet) :
    ∀ (i : Nat) (tr : TrackFrag),
    (makeFragmentLoop scale defFlags i (u64 (ToScale ((ps.getD 0 default).time) scale)) ps tr).run.entries
      = tr.run.entries ++ (pairsOf ps).map (entryOf scale defFlags) := by
  induction ps with
  | nil => intro i tr; simp [makeFragmentLoop, pairsOf]
  | cons p tail ih =>
    intro i tr
    cases tail with
    | nil => simp [makeFragmentLoop, pairsOf]
    | cons n rest =>
      rw [makeFragmentLoop]
      rw [pairsOf_cons, List.map_cons]
      simp only [List.getD_cons_zero]
      by_cases h0 : i = 0
      · subst h0
        have hnext := ih 1
        simp only [List.getD_cons_zero] at hnext
        by_cases hc : p.compositionTime = 0 <;> simp [hc, hnext, entryOf, Relative]
      · have hnext := ih (i + 1)
        simp only [List.getD_cons_zero] at hnext
        by_cases hc : p.compositionTime = 0 <;> simp [h0, hc, hnext, entryOf, Relative]

theorem makeFragmentLoop_header_flags (scale defFlags : Nat) (ps : List Packet) :
    ∀ (i curDTS : Nat) (tr : TrackFrag),
    (makeFragmentLoop scale defFlags i curDTS ps tr).header.flags = tr.header.flags := by
  induction ps with
  | nil => intro i c tr; simp [makeFragmentLoop]
  | cons p tail ih =>
    intro i c tr
    cases tail with
    | nil => simp [makeFragmentLoop]
    | cons n rest =>
      rw [makeFragmentLoop, ih]
      by_cases h0 : i = 0 <;> by_cases hc : p.compositionTime = 0 <;> simp [h0, hc]

theorem makeFragmentLoop_trackID (scale defFlags : Nat) (ps : List Packet) :
    ∀ (i curDTS : Nat) (tr : TrackFrag),
    (makeFragmentLoop scale defFlags i curDTS ps tr).header.trackID = tr.header.trackID := by
  induction ps with
  | nil => intro i c tr; simp [makeFragmentLoop]
  | cons p tail ih =>
    intro i c tr
    cases tail with
    | nil => simp [makeFragmentLoop]
    | cons n rest =>
      rw [makeFragmentLoop, ih]
      by_cases h0 : i = 0 <;> by_cases hc : p.compositionTime = 0 <;> simp [h0, hc]

theorem makeFragmentLoop_decodeTime (scale defFlags : Nat) (ps : List Packet) :
    ∀ (i curDTS : Nat) (tr : TrackFrag),
    (makeFragmentLoop scale defFlags i curDTS ps tr).decodeTime = tr.decodeTime := by
  induction ps with
  | nil => intro i c tr; simp [makeFragmentLoop]
  | cons p tail ih =>
    intro i c tr
    cases tail with
    | nil => simp [makeFragmentLoop]
    | cons n rest =>
      rw [makeFragmentLoop, ih]
      by_cases h0 : i = 0 <;> by_cases hc : p.compositionTime = 0 <;> simp [h0, hc]

theorem makeFragmentLoop_firstSampleFlags (scale defFlags : Nat) (ps : List Packet) :
    ∀ (i curDTS : Nat) (tr : TrackFrag), 1 ≤ i →
    (makeFragmentLoop scale defFlags i curDTS ps tr).run.firstSampleFlags
      = tr.run.firstSampleFlags := by
  induction ps with
  | nil => intro i c tr _; simp [makeFragmentLoop]
  | cons p tail ih =>
    intro i c tr hi
    cases tail with
    | nil => simp [makeFragmentLoop]
    | cons n rest =>
      rw [makeFragmentLoop, ih _ _ _ (by omega)]
      have h0 : ¬ i = 0 := by omega
      by_cases hc : p.compositionTime = 0 <;> simp [h0, hc]

theorem makeFragmentLoop_defaultSize (scale defFlags : Nat) (ps : List Packet) :
    ∀ (i curDTS : Nat) (tr : TrackFrag), 1 ≤ i →
    (makeFragmentLoop scale defFlags i curDTS ps tr).header.defaultSize
      = if ∀ pr ∈ pairsOf ps, u32 pr.1.data.length = tr.header.defaultSize
        then tr.header.defaultSize else 0 := by
  induction ps with
  | nil => intro i c tr _; simp [makeFragmentLoop, pairsOf]
  | cons p tail ih =>
    intro i c tr hi
    cases tail with
    | nil => simp [makeFragmentLoop, pairsOf]
    | cons n rest =>
      have h0 : ¬ i = 0 := by omega
      have hrec := fun c tr => ih (i + 1) c tr (Nat.le_add_left 1 i)
      rw [pairsOf_cons]
      by_cases hp : u32 p.data.length = tr.header.defaultSize
      · by_cases hall : ∀ pr ∈ pairsOf (n :: rest), u32 pr.1.data.length = tr.header.defaultSize
        · have hcons : ∀ pr ∈ (p, n) :: pairsOf (n :: rest),
              u32 pr.1.data.length = tr.header.defaultSize :=
            List.forall_mem_cons.mpr ⟨hp, hall⟩
          by_cases hc : p.compositionTime = 0 <;>
            simp [makeFragmentLoop, h0, hc, hp, hrec, if_pos hall, if_pos hcons]
        · have hcons : ¬ ∀ pr ∈ (p, n) :: pairsOf (n :: rest),
              u32 pr.1.data.length = tr.header.defaultSize :=
            fun h => hall (List.forall_mem_cons.mp h).2
          by_cases hc : p.compositionTime = 0 <;>
            simp [makeFragmentLoop, h0, hc, hp, hrec, if_neg hall, if_neg hcons]
      · have hcons : ¬ ∀ pr ∈ (p, n) :: pairsOf (n :: rest),
            u32 pr.1.data.length = tr.header.defaultSize :=
          fun h => hp ((List.forall_mem_cons.mp h).1)
        by_cases hc : p.compositionTime = 0 <;>
          simp [makeFragmentLoop, h0, hc, hp, hrec, ite_self, if_neg hcons]

theorem makeFragmentLoop_defaultDuration (scale defFlags : Nat) (ps : List Packet) :
    ∀ (i : Nat) (tr : TrackFrag), 1 ≤ i →
    (makeFragmentLoop scale defFlags i (u64 (ToScale ((ps.getD 0 default).time) scale)) ps tr).header.defaultDuration
      = if ∀ pr ∈ pairsOf ps, (entryOf scale defFlags pr).duration = tr.header.defaultDuration
        then tr.header.defaultDuration else 0 := by
  induction ps with
  | nil => intro i tr _; simp [makeFragmentLoop, pairsOf]
  | cons p tail ih =>
    intro i tr hi
    cases tail with
    | nil => simp [makeFragmentLoop, pairsOf]
    | cons n rest =>
      have h0 : ¬ i = 0 := by omega
      have hrec := fun tr => ih (i + 1) tr (Nat.le_add_left 1 i)
      simp only [List.getD_cons_zero] at hrec ⊢
      rw [pairsOf_cons]
      by_cases hp : (entryOf scale defFlags (p, n)).duration = tr.header.defaultDuration
      · by_cases hall : ∀ pr ∈ pairsOf (n :: rest),
            (entryOf scale defFlags pr).duration = tr.header.defaultDuration
        · have hcons : ∀ pr ∈ (p, n) :: pairsOf (n :: rest),
              (entryOf scale defFlags pr).duration = tr.header.defaultDuration :=
            List.forall_mem_cons.mpr ⟨hp, hall⟩
          simp only [entryOf] at hp
          by_cases hc : p.compositionTime = 0 <;>
            simp [makeFragmentLoop, h0, hc, hp, hrec, if_pos hall, if_pos hcons]
        · have hcons : ¬ ∀ pr ∈ (p, n) :: pairsOf (n :: rest),
              (entryOf scale defFlags pr).duration = tr.header.defaultDuration :=
            fun h => hall (List.forall_mem_cons.mp h).2
          simp only [entryOf] at hp
          by_cases hc : p.compositionTime = 0 <;>
            simp [makeFragmentLoop, h0, hc, hp, hrec, if_neg hall, if_neg hcons]
      · have hcons : ¬ ∀ pr ∈ (p, n) :: pairsOf (n :: rest),
            (entryOf scale defFlags pr).duration = tr.header.defaultDuration :=
          fun h => hp ((List.forall_mem_cons.mp h).1)
        simp only [entryOf] at hp
        by_cases hc : p.compositionTime = 0 <;>
          simp [makeFragmentLoop, h0, hc, hp, hrec, ite_self, if_neg hcons]

theorem makeFragmentLoop_defaultFlags (scale defFlags : Nat) (ps : List Packet) :
    ∀ (i curDTS : Nat) (tr : TrackFrag), 2 ≤ i →
    (makeFragmentLoop scale defFlags i curDTS ps tr).header.defaultFlags
      = if ∀ pr ∈ pairsOf ps, (entryOf scale defFlags pr).flags = tr.header.defaultFlags
        then tr.header.defaultFlags else 0 := by
  induction ps with
  | nil => intro i c tr _; simp [makeFragmentLoop, pairsOf]
  | cons p tail ih =>
    intro i c tr hi
    cases tail with
    | nil => simp [makeFragmentLoop, pairsOf]
    | cons n rest =>
      have h0 : ¬ i = 0 := by omega
      have h1 : ¬ i = 1 := by omega
      have hrec := fun c tr => ih (i + 1) c tr (by omega : 2 ≤ i + 1)
      rw [pairsOf_cons]
      by_cases hp : (entryOf scale defFlags (p, n)).flags = tr.header.defaultFlags
      · by_cases hall : ∀ pr ∈ pairsOf (n :: rest),
            (entryOf scale defFlags pr).flags = tr.header.defaultFlags
        · have hcons : ∀ pr ∈ (p, n) :: pairsOf (n :: rest),
              (entryOf scale defFlags pr).flags = tr.header.defaultFlags :=
            List.forall_mem_cons.mpr ⟨hp, hall⟩
          simp only [entryOf] at hp
          by_cases hc : p.compositionTime = 0 <;>
            simp [makeFragmentLoop, h0, h1, hc, hp, hrec, if_pos hall, if_pos hcons]
        · have hcons : ¬ ∀ pr ∈ (p, n) :: pairsOf (n :: rest),
              (entryOf scale defFlags pr).flags = tr.header.defaultFlags :=
            fun h => hall (List.forall_mem_cons.mp h).2
          simp only [entryOf] at hp
          by_cases hc : p.compositionTime = 0 <;>
            simp [makeFragmentLoop, h0, h1, hc, hp, hrec, if_neg hall, if_neg hcons]
      · have hcons : ¬ ∀ pr ∈ (p, n) :: pairsOf (n :: rest),
            (entryOf scale defFlags pr).flags = tr.header.defaultFlags :=
          fun h => hp ((List.forall_mem_cons.mp h).1)
        simp only [entryOf] at hp
        by_cases hc : p.compositionTime = 0 <;>
          simp [makeFragmentLoop, h0, h1, hc, hp, hrec, ite_self, if_neg hcons]

theorem makeFragmentLoop_run_flags (scale defFlags : Nat) (ps : List Packet) :
    ∀ (i curDTS : Nat) (tr : TrackFrag),
    (makeFragmentLoop scale defFlags i curDTS ps tr).run.flags
      = if ∃ pr ∈ pairsOf ps, pr.1.compositionTime ≠ 0
        then tr.run.flags ||| trackRunSampleCTS else tr.run.flags := by
  induction ps with
  | nil => intro i c tr; simp [makeFragmentLoop, pairsOf]
  | cons p tail ih =>
    intro i c tr
    cases tail with
    | nil => simp [makeFragmentLoop, pairsOf]
    | cons n rest =>
      rw [pairsOf_cons]
      by_cases hc : p.compositionTime = 0
      · by_cases hex : ∃ pr ∈ pairsOf (n :: rest), pr.1.compositionTime ≠ 0
        · have hcons : ∃ pr ∈ (p, n) :: pairsOf (n :: rest), pr.1.compositionTime ≠ 0 := by
            obtain ⟨x, hx, hPx⟩ := hex
            exact ⟨x, List.mem_cons_of_mem _ hx, hPx⟩
          by_cases h0 : i = 0 <;>
            simp [makeFragmentLoop, ih, h0, hc, if_pos hex, if_pos hcons]
        · have hcons : ¬ ∃ pr ∈ (p, n) :: pairsOf (n :: rest), pr.1.compositionTime ≠ 0 := by
            rintro ⟨x, hx, hPx⟩
            rcases List.mem_cons.mp hx with h | h
            · exact hPx (by simp [h, hc])
            · exact hex ⟨x, h, hPx⟩
          by_cases h0 : i = 0 <;>
            simp [makeFragmentLoop, ih, h0, hc, if_neg hex, if_neg hcons]
      · have hcons : ∃ pr ∈ (p, n) :: pairsOf (n :: rest), pr.1.compositionTime ≠ 0 :=
          ⟨(p, n), List.mem_cons_self _ _, hc⟩
        by_cases hex : ∃ pr ∈ pairsOf (n :: rest), pr.1.compositionTime ≠ 0
        · by_cases h0 : i = 0 <;>
            simp [makeFragmentLoop, ih, h0, hc, if_pos hex, if_pos hcons, Nat.lor_assoc,
              (by decide : trackRunSampleCTS ||| trackRunSampleCTS = trackRunSampleCTS)]
        · by_cases h0 : i = 0 <;>
            simp [makeFragmentLoop, ih, h0, hc, if_neg hex, if_pos hcons]

theorem makeFragmentLoop_defaultSize_from0 (scale defFlags : Nat) (p n0 : Packet)
    (rest : List Packet) (curDTS : Nat) (tr : TrackFrag) :
    (makeFragmentLoop scale defFlags 0 curDTS (p :: n0 :: rest) tr).header.defaultSize
      = if ∀ pr ∈ pairsOf (p :: n0 :: rest), u32 pr.1.data.length = u32 p.data.length
        then u32 p.data.length else 0 := by
  rw [pairsOf_cons]
  have hrec := fun c tr => makeFragmentLoop_defaultSize scale defFlags (n0 :: rest) 1 c tr (le_refl 1)
  by_cases hc : p.compositionTime = 0 <;>
    simp [makeFragmentLoop, hc, hrec] <;>
    exact if_congr (by simp [List.forall_mem_cons]) rfl rfl

theorem makeFragmentLoop_defaultDuration_from0 (scale defFlags : Nat) (p n0 : Packet)
    (rest : List Packet) (tr : TrackFrag) :
    (makeFragmentLoop scale defFlags 0 (u64 (ToScale p.time scale)) (p :: n0 :: rest) tr).header.defaultDuration
      = if ∀ pr ∈ pairsOf (p :: n0 :: rest),
            (entryOf scale defFlags pr).duration = (entryOf scale defFlags (p, n0)).duration
        then (entryOf scale defFlags (p, n0)).duration else 0 := by
  rw [pairsOf_cons]
  have hrec := fun tr => makeFragmentLoop_defaultDuration scale defFlags (n0 :: rest) 1 tr (le_refl 1)
  simp only [List.getD_cons_zero] at hrec
  by_cases hc : p.compositionTime = 0 <;>
    simp [makeFragmentLoop, hc, hrec, entryOf] <;>
    exact if_congr (by simp [List.forall_mem_cons, entryOf]) rfl rfl

theorem makeFragmentLoop_firstSampleFlags_from0 (scale defFlags : Nat) (p n0 : Packet)
    (rest : List Packet) (curDTS : Nat) (tr : TrackFrag) :
    (makeFragmentLoop scale defFlags 0 curDTS (p :: n0 :: rest) tr).run.firstSampleFlags
      = (entryOf scale defFlags (p, n0)).flags := by
  have hrec := fun c tr => makeFragmentLoop_firstSampleFlags scale defFlags (n0 :: rest) 1 c tr (le_refl 1)
  by_cases hc : p.compositionTime = 0 <;>
    simp [makeFragmentLoop, hc, hrec, entryOf]

theorem makeFragmentLoop_defaultFlags_two (scale defFlags : Nat) (p n0 : Packet)
    (curDTS : Nat) (tr : TrackFrag) :
    (makeFragmentLoop scale defFlags 0 curDTS [p, n0] tr).header.defaultFlags
      = (entryOf scale defFlags (p, n0)).flags := by
  by_cases hc : p.compositionTime = 0 <;>
    simp [makeFragmentLoop, hc, entryOf]

theorem makeFragmentLoop_defaultFlags_from0 (scale defFlags : Nat) (p n0 n1 : Packet)
    (rest : List Packet) (curDTS : Nat) (tr : TrackFrag) :
    (makeFragmentLoop scale defFlags 0 curDTS (p :: n0 :: n1 :: rest) tr).header.defaultFlags
      = if ∀ pr ∈ pairsOf (n1 :: rest),
            (entryOf scale defFlags pr).flags = (entryOf scale defFlags (n0, n1)).flags
        then (entryOf scale defFlags (n0, n1)).flags else 0 := by
  have hrec := fun c tr =>
    makeFragmentLoop_defaultFlags scale defFlags (n1 :: rest) 2 c tr (le_refl 2)
  by_cases hc : p.compositionTime = 0 <;> by_cases hc1 : n0.compositionTime = 0 <;>
    simp [makeFragmentLoop, hc, hc1, hrec, entryOf]

/-! ## Helper lemmas: the post-loop flag selection -/

theorem postFlags_fields (t : TrackFrag) :
    (postFlags t).run.entries = t.run.entries
    ∧ (postFlags t).run.firstSampleFlags = t.run.firstSampleFlags
    ∧ (postFlags t).header.defaultSize = t.header.defaultSize
    ∧ (postFlags t).header.defaultDuration = t.header.defaultDuration
    ∧ (postFlags t).header.defaultFlags = t.header.defaultFlags
    ∧ (postFlags t).decodeTime = t.decodeTime
    ∧ (postFlags t).header.trackID = t.header.trackID
    ∧ (postFlags t).run.dataOffset = t.run.dataOffset
    ∧ (postFlags t).run.version = t.run.version := by
  by_cases h1 : t.header.defaultSize = 0 <;> by_cases h2 : t.header.defaultDuration = 0 <;>
    by_cases h3 : t.header.defaultFlags = 0 <;>
    simp [postFlags, h1, h2, h3] <;> split <;> simp

theorem postFlags_entries (t : TrackFrag) :
    (postFlags t).run.entries = t.run.entries := (postFlags_fields t).1

theorem postFlags_firstSampleFlags (t : TrackFrag) :
    (postFlags t).run.firstSampleFlags = t.run.firstSampleFlags := (postFlags_fields t).2.1

theorem postFlags_defaultSize (t : TrackFrag) :
    (postFlags t).header.defaultSize = t.header.defaultSize := (postFlags_fields t).2.2.1

theorem postFlags_defaultDuration (t : TrackFrag) :
    (postFlags t).header.defaultDuration = t.header.defaultDuration := (postFlags_fields t).2.2.2.1

theorem postFlags_defaultFlags (t : TrackFrag) :
    (postFlags t).header.defaultFlags = t.header.defaultFlags := (postFlags_fields t).2.2.2.2.1

theorem postFlags_decodeTime (t : TrackFrag) :
    (postFlags t).decodeTime = t.decodeTime := (postFlags_fields t).2.2.2.2.2.1

theorem postFlags_trackID (t : TrackFrag) :
    (postFlags t).header.trackID = t.header.trackID := (postFlags_fields t).2.2.2.2.2.2.1

theorem postFlags_header_flags (t : TrackFrag) :
    (postFlags t).header.flags
      = t.header.flags
        ||| (if t.header.defaultSize ≠ 0 then trackFragDefaultSize else 0)
        ||| (if t.header.defaultDuration ≠ 0 then trackFragDefaultDuration else 0)
        ||| (if t.header.defaultFlags ≠ 0 then trackFragDefaultFlags else 0) := by
  by_cases h1 : t.header.defaultSize = 0 <;> by_cases h2 : t.header.defaultDuration = 0 <;>
    by_cases h3 : t.header.defaultFlags = 0 <;>
    simp [postFlags, h1, h2, h3, Nat.or_zero] <;> split <;> simp

theorem postFlags_run_flags (t : TrackFrag) :
    (postFlags t).run.flags
      = t.run.flags
        ||| (if t.header.defaultSize ≠ 0 then 0 else trackRunSampleSize)
        ||| (if t.header.defaultDuration ≠ 0 then 0 else trackRunSampleDuration)
        ||| (if t.header.defaultFlags ≠ 0 then
               (if t.run.firstSampleFlags ≠ t.header.defaultFlags then trackRunFirstSampleFlags else 0)
             else trackRunSampleFlags) := by
  by_cases h1 : t.header.defaultSize = 0 <;> by_cases h2 : t.header.defaultDuration = 0 <;>
    by_cases h3 : t.header.defaultFlags = 0 <;>
    by_cases h4 : t.run.firstSampleFlags = t.header.defaultFlags <;>
    simp [postFlags, h1, h2, h3, h4, Nat.or_zero]

/-- Bit-level reading of the post-loop flag selection, for track boxes
as the loop produces them (header flags are the base-is-moof bit, run
flags are the data-offset bit possibly together with the per-sample
composition-offset bit). -/
theorem postFlags_bits (t : TrackFrag)
    (ht : t.header.flags = trackFragDefaultBaseIsMOOF)
    (hrun : t.run.flags = trackRunDataOffset
      ∨ t.run.flags = trackRunDataOffset ||| trackRunSampleCTS) :
    ((postFlags t).header.flags.testBit 4 = true ↔ t.header.defaultSize ≠ 0)
    ∧ (postFlags t).run.flags.testBit 9 = !(postFlags t).header.flags.testBit 4
    ∧ ((postFlags t).header.flags.testBit 3 = true ↔ t.header.defaultDuration ≠ 0)
    ∧ (postFlags t).run.flags.testBit 8 = !(postFlags t).header.flags.testBit 3
    ∧ ((postFlags t).header.flags.testBit 5 = true ↔ t.header.defaultFlags ≠ 0)
    ∧ (postFlags t).run.flags.testBit 10 = !(postFlags t).header.flags.testBit 5
    ∧ ((postFlags t).run.flags.testBit 2 = true
        ↔ (t.header.defaultFlags ≠ 0 ∧ t.run.firstSampleFlags ≠ t.header.defaultFlags)) := by
  rw [postFlags_header_flags, postFlags_run_flags, ht]
  rcases hrun with h | h <;> rw [h] <;>
    by_cases h1 : t.header.defaultSize = 0 <;>
    by_cases h2 : t.header.defaultDuration = 0 <;>
    by_cases h3 : t.header.defaultFlags = 0 <;>
    by_cases h4 : t.run.firstSampleFlags = t.header.defaultFlags <;>
    simp [h1, h2, h3, h4] <;> decide

/-- makeFragment at a state with at least two pending packets, written
out as the explicit pair it produces. -/
theorem makeFragment_some (f : TrackFragmenter) (hlt : ¬ f.pending.length < 2) :
    makeFragment f
      = (some
          { trackFrag :=
              postFlags (makeFragmentLoop f.timeScale
                (if f.isVideo then sampleNonKeyframe else sampleNoDependencies) 0
                (u64 (ToScale ((f.pending.getD 0 default).time) f.timeScale)) f.pending
                { header := { flags := trackFragDefaultBaseIsMOOF, trackID := f.trackID }
                  decodeTime :=
                    { version := 1
                      time := u64 (ToScale ((f.pending.getD 0 default).time) f.timeScale) }
                  run := { flags := trackRunDataOffset } })
            packets := f.pending.take (f.pending.length - 1) },
         { f with pending := [f.pending.getD (f.pending.length - 1) default] }) := by
  simp [makeFragment, hlt]

/-! ## shared characterization for C3 and C4 -/

theorem makeFragment_char (f : TrackFragmenter) (p n0 : Packet) (rest : List Packet)
    (hp : f.pending = p :: n0 :: rest)
    (d : fragmentWithData) (hd : (makeFragment f).1 = some d) :
    ∃ t1, d.trackFrag = postFlags t1
      ∧ t1.header.flags = trackFragDefaultBaseIsMOOF
      ∧ (t1.run.flags = trackRunDataOffset
          ∨ t1.run.flags = trackRunDataOffset ||| trackRunSampleCTS)
      ∧ t1.run.entries
          = (pairsOf (p :: n0 :: rest)).map
            (entryOf f.timeScale (if f.isVideo then sampleNonKeyframe else sampleNoDependencies))
      ∧ t1.header.defaultSize
          = (if ∀ pr ∈ pairsOf (p :: n0 :: rest), u32 pr.1.data.length = u32 p.data.length
             then u32 p.data.length else 0)
      ∧ t1.header.defaultDuration
          = (if ∀ pr ∈ pairsOf (p :: n0 :: rest),
                (entryOf f.timeScale (if f.isVideo then sampleNonKeyframe else sampleNoDependencies) pr).duration
                  = (entryOf f.timeScale (if f.isVideo then sampleNonKeyframe else sampleNoDependencies) (p, n0)).duration
             then (entryOf f.timeScale (if f.isVideo then sampleNonKeyframe else sampleNoDependencies) (p, n0)).duration
             else 0)
      ∧ t1.run.firstSampleFlags
          = (entryOf f.timeScale (if f.isVideo then sampleNonKeyframe else sampleNoDependencies) (p, n0)).flags := by
  have hlt : ¬ f.pending.length < 2 := by rw [hp]; simp
  rw [makeFragment_some f hlt] at hd
  simp only [Option.some.injEq] at hd
  subst hd
  refine ⟨_, rfl, ?_, ?_, ?_, ?_, ?_, ?_⟩
  · rw [hp]; rw [makeFragmentLoop_header_flags]
  · rw [hp]; rw [makeFragmentLoop_run_flags]
    split <;> simp
  · rw [hp]
    have := makeFragmentLoop_entries f.timeScale
      (if f.isVideo then sampleNonKeyframe else sampleNoDependencies) (p :: n0 :: rest) 0
    simpa using this _
  · rw [hp]; simp only [List.getD_cons_zero]
    exact makeFragmentLoop_defaultSize_from0 _ _ _ _ _ _ _
  · rw [hp]; simp only [List.getD_cons_zero]
    exact makeFragmentLoop_defaultDuration_from0 _ _ _ _ _ _
  · rw [hp]; simp only [List.getD_cons_zero]
    exact makeFragmentLoop_firstSampleFlags_from0 _ _ _ _ _ _ _

/-! ## C3 -/

/-- C3 (amended): in a fragment produced by makeFragment, the header
declares a uniform default size exactly when all emitted samples have
identical and nonzero size (and then the declared default is that
size), and the run carries a per-sample size field exactly otherwise;
the identical rule holds for duration.  The no-uniform-value state is
the value zero itself, so a uniform value of 0 falls back to
per-sample storage instead of a header default. -/
theorem c3_uniform_size_duration (f : TrackFragmenter) (h2 : 2 ≤ f.pending.length)
    (d : fragmentWithData) (hd : (makeFragment f).1 = some d) :
    ((((∀ e ∈ d.trackFrag.run.entries, e.size = (d.trackFrag.run.entries.headD default).size)
        ∧ (d.trackFrag.run.entries.headD default).size ≠ 0)
      ↔ d.trackFrag.header.flags.testBit 4 = true)
    ∧ (d.trackFrag.header.flags.testBit 4 = true →
        d.trackFrag.header.defaultSize = (d.trackFrag.run.entries.headD default).size)
    ∧ d.trackFrag.run.flags.testBit 9 = !d.trackFrag.header.flags.testBit 4)
    ∧ ((((∀ e ∈ d.trackFrag.run.entries, e.duration = (d.trackFrag.run.entries.headD default).duration)
        ∧ (d.trackFrag.run.entries.headD default).duration ≠ 0)
      ↔ d.trackFrag.header.flags.testBit 3 = true)
    ∧ (d.trackFrag.header.flags.testBit 3 = true →
        d.trackFrag.header.defaultDuration = (d.trackFrag.run.entries.headD default).duration)
    ∧ d.trackFrag.run.flags.testBit 8 = !d.trackFrag.header.flags.testBit 3) := by
  obtain ⟨p, n0, rest, hp⟩ : ∃ p n0 rest, f.pending = p :: n0 :: rest := by
    cases hpd : f.pending with
    | nil => rw [hpd] at h2; simp at h2
    | cons a t =>
      cases t with
      | nil => rw [hpd] at h2; simp at h2
      | cons b r => exact ⟨a, b, r, rfl⟩
  obtain ⟨t1, hdt, hhf, hrf, hent, hdsz, hddur, _⟩ := makeFragment_char f p n0 rest hp d hd
  obtain ⟨b4, b9, b3, b8, _, _, _⟩ := postFlags_bits t1 hhf hrf
  rw [hdt, postFlags_entries, postFlags_defaultSize, postFlags_defaultDuration, hent]
  have hs0 : ((pairsOf (p :: n0 :: rest)).map
        (entryOf f.timeScale (if f.isVideo then sampleNonKeyframe else sampleNoDependencies))).headD
          default
      = entryOf f.timeScale (if f.isVideo then sampleNonKeyframe else sampleNoDependencies)
          (p, n0) := by
    rw [pairsOf_cons]; rfl
  rw [hs0]
  refine ⟨⟨?_, ?_, b9⟩, ?_, ?_, b8⟩
  · rw [List.forall_mem_map, b4, hdsz]
    by_cases hu : ∀ pr ∈ pairsOf (p :: n0 :: rest), u32 pr.1.data.length = u32 p.data.length
    · rw [if_pos hu]
      exact ⟨fun h => h.2, fun hne => ⟨hu, hne⟩⟩
    · rw [if_neg hu]
      exact ⟨fun h => absurd h.1 hu, fun h0 => absurd rfl h0⟩
  · rw [b4, hdsz]
    by_cases hu : ∀ pr ∈ pairsOf (p :: n0 :: rest), u32 pr.1.data.length = u32 p.data.length
    · rw [if_pos hu]; intro _; rfl
    · rw [if_neg hu]; intro h0; exact absurd rfl h0
  · rw [List.forall_mem_map, b3, hddur]
    by_cases hu : ∀ pr ∈ pairsOf (p :: n0 :: rest),
        (entryOf f.timeScale (if f.isVideo then sampleNonKeyframe else sampleNoDependencies) pr).duration
          = (entryOf f.timeScale
              (if f.isVideo then sampleNonKeyframe else sampleNoDependencies) (p, n0)).duration
    · rw [if_pos hu]
      exact ⟨fun h => h.2, fun hne => ⟨hu, hne⟩⟩
    · rw [if_neg hu]
      exact ⟨fun h => absurd h.1 hu, fun h0 => absurd rfl h0⟩
  · rw [b3, hddur]
    by_cases hu : ∀ pr ∈ pairsOf (p :: n0 :: rest),
        (entryOf f.timeScale (if f.isVideo then sampleNonKeyframe else sampleNoDependencies) pr).duration
          = (entryOf f.timeScale
              (if f.isVideo then sampleNonKeyframe else sampleNoDependencies) (p, n0)).duration
    · rw [if_pos hu]; intro _; rfl
    · rw [if_neg hu]; intro h0; exact absurd rfl h0

/-- C3 counterexample input: all emitted samples have size 0 (empty
payloads), a uniform value; the claim as stated then requires a header
default size, but the code conflates the uniform value 0 with the
no-default sentinel and emits per-sample sizes instead. -/
theorem c3_zero_size_counterexample :
    ∃ d, (makeFragment
        { trackID := 1, timeScale := 1000000000, isVideo := false,
          pending := [{ time := 0, data := [] }, { time := 1, data := [] },
                      { time := 2, data := [] }] }).1 = some d
      ∧ (∀ e ∈ d.trackFrag.run.entries, e.size = 0)
      ∧ d.trackFrag.run.entries ≠ []
      ∧ d.trackFrag.header.flags.testBit 4 = false
      ∧ d.trackFrag.run.flags.testBit 9 = true := by
  refine ⟨_, rfl, by decide, by decide, by decide, by decide⟩

/-- C3 witness: with uniform nonzero sizes the header default is
declared and no per-sample size is stored, as the amended claim
states. -/
theorem c3_uniform_size_duration_witness :
    ∃ d, (makeFragment
        { trackID := 1, timeScale := 1000000000, isVideo := false,
          pending := [{ time := 0, data := [5, 5] }, { time := 1, data := [6, 6] },
                      { time := 2, data := [7] }] }).1 = some d
      ∧ ((((∀ e ∈ d.trackFrag.run.entries, e.size = (d.trackFrag.run.entries.headD default).size)
          ∧ (d.trackFrag.run.entries.headD default).size ≠ 0)
        ↔ d.trackFrag.header.flags.testBit 4 = true)
      ∧ (d.trackFrag.header.flags.testBit 4 = true →
          d.trackFrag.header.defaultSize = (d.trackFrag.run.entries.headD default).size)
      ∧ d.trackFrag.run.flags.testBit 9 = !d.trackFrag.header.flags.testBit 4)
      ∧ ((((∀ e ∈ d.trackFrag.run.entries, e.duration = (d.trackFrag.run.entries.headD default).duration)
          ∧ (d.trackFrag.run.entries.headD default).duration ≠ 0)
        ↔ d.trackFrag.header.flags.testBit 3 = true)
      ∧ (d.trackFrag.header.flags.testBit 3 = true →
          d.trackFrag.header.defaultDuration = (d.trackFrag.run.entries.headD default).duration)
      ∧ d.trackFrag.run.flags.testBit 8 = !d.trackFrag.header.flags.testBit 3) :=
  ⟨_, rfl, c3_uniform_size_duration
    { trackID := 1, timeScale := 1000000000, isVideo := false,
      pending := [{ time := 0, data := [5, 5] }, { time := 1, data := [6, 6] },
                  { time := 2, data := [7] }] }
    (by decide) _ rfl⟩

/-! ## C4 -/

theorem makeFragment_char_flags (f : TrackFragmenter) (p n0 n1 : Packet) (rest : List Packet)
    (hp : f.pending = p :: n0 :: n1 :: rest)
    (d : fragmentWithData) (hd : (makeFragment f).1 = some d) :
    ∃ t1, d.trackFrag = postFlags t1
      ∧ t1.header.flags = trackFragDefaultBaseIsMOOF
      ∧ (t1.run.flags = trackRunDataOffset
          ∨ t1.run.flags = trackRunDataOffset ||| trackRunSampleCTS)
      ∧ t1.run.entries
          = (pairsOf (p :: n0 :: n1 :: rest)).map
            (entryOf f.timeScale (if f.isVideo then sampleNonKeyframe else sampleNoDependencies))
      ∧ t1.header.defaultFlags
          = (if ∀ pr ∈ pairsOf (n1 :: rest),
                (entryOf f.timeScale (if f.isVideo then sampleNonKeyframe else sampleNoDependencies) pr).flags
                  = (entryOf f.timeScale (if f.isVideo then sampleNonKeyframe else sampleNoDependencies) (n0, n1)).flags
             then (entryOf f.timeScale (if f.isVideo then sampleNonKeyframe else sampleNoDependencies) (n0, n1)).flags
             else 0)
      ∧ t1.run.firstSampleFlags
          = (entryOf f.timeScale (if f.isVideo then sampleNonKeyframe else sampleNoDependencies) (p, n0)).flags := by
  have hlt : ¬ f.pending.length < 2 := by rw [hp]; simp
  rw [makeFragment_some f hlt] at hd
  simp only [Option.some.injEq] at hd
  subst hd
  refine ⟨_, rfl, ?_, ?_, ?_, ?_, ?_⟩
  · rw [hp]; rw [makeFragmentLoop_header_flags]
  · rw [hp]; rw [makeFragmentLoop_run_flags]
    split <;> simp
  · rw [hp]
    have := makeFragmentLoop_entries f.timeScale
      (if f.isVideo then sampleNonKeyframe else sampleNoDependencies) (p :: n0 :: n1 :: rest) 0
    simpa using this _
  · rw [hp]; simp only [List.getD_cons_zero]
    exact makeFragmentLoop_defaultFlags_from0 _ _ _ _ _ _ _ _
  · rw [hp]; simp only [List.getD_cons_zero]
    exact makeFragmentLoop_firstSampleFlags_from0 _ _ _ _ _ _ _

/-- C4: for a fragment with at least two samples, the shared flags
default is seeded from sample 1's flags and cleared only when a sample
at index 2 or beyond differs; when it survives, the header declares it
and the run carries a first-sample-flags override exactly when sample
0's flags differ from that default; when it is cleared, every sample
carries its own flags. -/
theorem c4_flags_default (f : TrackFragmenter) (h3 : 3 ≤ f.pending.length)
    (d : fragmentWithData) (hd : (makeFragment f).1 = some d) :
    ((∀ e ∈ d.trackFrag.run.entries.drop 2,
        e.flags = (d.trackFrag.run.entries.getD 1 default).flags) →
        d.trackFrag.header.flags.testBit 5 = true
        ∧ d.trackFrag.header.defaultFlags = (d.trackFrag.run.entries.getD 1 default).flags
        ∧ (d.trackFrag.run.flags.testBit 2 = true
            ↔ (d.trackFrag.run.entries.getD 0 default).flags
                ≠ (d.trackFrag.run.entries.getD 1 default).flags)
        ∧ d.trackFrag.run.flags.testBit 10 = false)
    ∧ ((¬ ∀ e ∈ d.trackFrag.run.entries.drop 2,
          e.flags = (d.trackFrag.run.entries.getD 1 default).flags) →
        d.trackFrag.header.flags.testBit 5 = false
        ∧ d.trackFrag.run.flags.testBit 10 = true) := by
  obtain ⟨p, n0, n1, rest, hp⟩ : ∃ p n0 n1 rest, f.pending = p :: n0 :: n1 :: rest := by
    cases hpd : f.pending with
    | nil => rw [hpd] at h3; simp at h3
    | cons a t =>
      cases t with
      | nil => rw [hpd] at h3; simp at h3
      | cons b r =>
        cases r with
        | nil => rw [hpd] at h3; simp at h3
        | cons c r2 => exact ⟨a, b, c, r2, rfl⟩
  obtain ⟨t1, hdt, hhf, hrf, hent, hdfl, hfsf⟩ := makeFragment_char_flags f p n0 n1 rest hp d hd
  obtain ⟨_, _, _, _, b5, b10, b2⟩ := postFlags_bits t1 hhf hrf
  rw [hdt, postFlags_entries, postFlags_defaultFlags, hent]
  have hdrop : ((pairsOf (p :: n0 :: n1 :: rest)).map
      (entryOf f.timeScale (if f.isVideo then sampleNonKeyframe else sampleNoDependencies))).drop 2
      = (pairsOf (n1 :: rest)).map
          (entryOf f.timeScale (if f.isVideo then sampleNonKeyframe else sampleNoDependencies)) := by
    rw [pairsOf_cons, pairsOf_cons]; rfl
  have hget1 : ((pairsOf (p :: n0 :: n1 :: rest)).map
      (entryOf f.timeScale (if f.isVideo then sampleNonKeyframe else sampleNoDependencies))).getD 1 default
      = entryOf f.timeScale (if f.isVideo then sampleNonKeyframe else sampleNoDependencies) (n0, n1) := by
    rw [pairsOf_cons, pairsOf_cons]; rfl
  have hget0 : ((pairsOf (p :: n0 :: n1 :: rest)).map
      (entryOf f.timeScale (if f.isVideo then sampleNonKeyframe else sampleNoDependencies))).getD 0 default
      = entryOf f.timeScale (if f.isVideo then sampleNonKeyframe else sampleNoDependencies) (p, n0) := by
    rw [pairsOf_cons]; rfl
  rw [hdrop, hget1, hget0, List.forall_mem_map]
  have hnz : (entryOf f.timeScale (if f.isVideo then sampleNonKeyframe else sampleNoDependencies)
      (n0, n1)).flags ≠ 0 := by
    by_cases hk : n0.isKeyFrame <;> by_cases hv : f.isVideo <;>
      simp [entryOf, hk, hv, sampleNoDependencies, sampleNonKeyframe]
  constructor
  · intro hu
    have hdfl1 : t1.header.defaultFlags
        = (entryOf f.timeScale (if f.isVideo then sampleNonKeyframe else sampleNoDependencies)
            (n0, n1)).flags := by rw [hdfl, if_pos hu]
    refine ⟨?_, ?_, ?_, ?_⟩
    · exact b5.mpr (by rw [hdfl1]; exact hnz)
    · exact hdfl1
    · rw [b2, hdfl1, hfsf]
      exact ⟨fun h => h.2, fun h => ⟨hnz, h⟩⟩
    · rw [b10, b5.mpr (by rw [hdfl1]; exact hnz)]
      rfl
  · intro hu
    have hdfl0 : t1.header.defaultFlags = 0 := by
      rw [hdfl, if_neg hu]
    have hb5 : (postFlags t1).header.flags.testBit 5 = false := by
      cases hb : (postFlags t1).header.flags.testBit 5 with
      | false => rfl
      | true => exact absurd hdfl0 (b5.mp hb)
    exact ⟨hb5, by rw [b10, hb5]; rfl⟩

/-- C4 witness: a video track whose sample 0 is a keyframe and whose
samples 1 and 2 share the non-keyframe flags keeps the shared default
from sample 1, declares it in the header, and carries the
first-sample-flags override because sample 0 differs. -/
theorem c4_flags_default_witness :
    ∃ d, (makeFragment
        { trackID := 1, timeScale := 1000000000, isVideo := true,
          pending := [{ time := 0, isKeyFrame := true, data := [1] },
                      { time := 1, data := [2] }, { time := 2, data := [3] },
                      { time := 3, data := [4] }] }).1 = some d
      ∧ (((∀ e ∈ d.trackFrag.run.entries.drop 2,
            e.flags = (d.trackFrag.run.entries.getD 1 default).flags) →
            d.trackFrag.header.flags.testBit 5 = true
            ∧ d.trackFrag.header.defaultFlags = (d.trackFrag.run.entries.getD 1 default).flags
            ∧ (d.trackFrag.run.flags.testBit 2 = true
                ↔ (d.trackFrag.run.entries.getD 0 default).flags
                    ≠ (d.trackFrag.run.entries.getD 1 default).flags)
            ∧ d.trackFrag.run.flags.testBit 10 = false)
        ∧ ((¬ ∀ e ∈ d.trackFrag.run.entries.drop 2,
              e.flags = (d.trackFrag.run.entries.getD 1 default).flags) →
            d.trackFrag.header.flags.testBit 5 = false
            ∧ d.trackFrag.run.flags.testBit 10 = true)) :=
  ⟨_, rfl, c4_flags_default
    { trackID := 1, timeScale := 1000000000, isVideo := true,
      pending := [{ time := 0, isKeyFrame := true, data := [1] },
                  { time := 1, data := [2] }, { time := 2, data := [3] },
                  { time := 3, data := [4] }] }
    (by decide) _ rfl⟩

/-! ## C5 -/

/-- C5: makeFragment with fewer than 2 buffered packets returns no
fragment (an empty result, not an error) and leaves the pending buffer
unchanged; with n ≥ 2 buffered packets it emits exactly n-1 sample
entries, returns exactly the first n-1 packets as the consumed payload
slice, and resets the pending buffer to exactly one packet: the
previously-last lookahead packet. -/
theorem c5_makeFragment_consume (f : TrackFragmenter) :
    (f.pending.length < 2 → makeFragment f = (none, f))
    ∧ (2 ≤ f.pending.length →
        ∃ d, (makeFragment f).1 = some d
          ∧ d.trackFrag.run.entries.length = f.pending.length - 1
          ∧ d.packets = f.pending.take (f.pending.length - 1)
          ∧ (makeFragment f).2.pending = [f.pending.getD (f.pending.length - 1) default]) := by
  constructor
  · intro h; simp [makeFragment, h]
  · intro h
    have hlt : ¬ f.pending.length < 2 := by omega
    simp only [makeFragment, if_neg hlt]
    refine ⟨_, rfl, ?_, rfl, ?_⟩
    · simp [postFlags_entries, makeFragmentLoop_entries_length]
    · trivial

/-- C5 witness: a concrete 3-packet fragmenter consumes 2 packets,
emits 2 entries and keeps the lookahead packet pending; a 1-packet
fragmenter returns no fragment. -/
theorem c5_makeFragment_consume_witness :
    (∃ d, (makeFragment
        { trackID := 1, timeScale := 1000, isVideo := false,
          pending := [{ time := 0, data := [1] }, { time := 1000000, data := [2, 2] },
                      { time := 3000000, data := [3] }] }).1 = some d
      ∧ d.trackFrag.run.entries.length = 2
      ∧ d.packets = [{ time := 0, data := [1] }, { time := 1000000, data := [2, 2] }]
      ∧ (makeFragment
        { trackID := 1, timeScale := 1000, isVideo := false,
          pending := [{ time := 0, data := [1] }, { time := 1000000, data := [2, 2] },
                      { time := 3000000, data := [3] }] }).2.pending
          = [{ time := 3000000, data := [3] }]) := by
  have h := (c5_makeFragment_consume
    { trackID := 1, timeScale := 1000, isVideo := false,
      pending := [{ time := 0, data := [1] }, { time := 1000000, data := [2, 2] },
                  { time := 3000000, data := [3] }] }).2 (by decide)
  simpa using h

/-! ## C6 -/

theorem duration_sum_telescope (g : Packet → Nat) (ps : List Packet) :
    (∀ pr ∈ pairsOf ps, g pr.1 ≤ g pr.2) →
    ((pairsOf ps).map (fun pr => g pr.2 - g pr.1)).sum
        = g ((ps.getLast?).getD default) - g (ps.headD default)
      ∧ g (ps.headD default) ≤ g ((ps.getLast?).getD default) := by
  induction ps with
  | nil => intro _; simp [pairsOf]
  | cons p tail ih =>
    intro hmono
    cases tail with
    | nil => simp [pairsOf]
    | cons n rest =>
      have htail := ih (fun pr hpr => hmono pr (by rw [pairsOf_cons]; exact List.mem_cons_of_mem _ hpr))
      have hhead : g p ≤ g n := hmono (p, n) (by rw [pairsOf_cons]; exact List.mem_cons_self _ _)
      rw [pairsOf_cons, List.map_cons, List.sum_cons, List.getLast?_cons_cons]
      simp only [List.headD_cons] at htail ⊢
      obtain ⟨hsum, hle⟩ := htail
      constructor
      · rw [hsum]; omega
      · omega

theorem u32_wrap_sub (a b : Nat) (h1 : a ≤ b) (h2 : b < 18446744073709551616)
    (h3 : b - a < 4294967296) :
    u32 ((u64 b + 18446744073709551616 - u64 a) % 18446744073709551616) = b - a := by
  simp only [u32, u64]; omega

/-- C6 (amended): for a buffer of at least 2 packets with strictly
increasing times, and provided every per-sample scaled delta fits in
32 bits and the scaled times fit in 64 bits, each emitted duration i
equals ToScale(packet i+1 time) - ToScale(packet i time) and their sum
telescopes to ToScale(lookahead packet time) - ToScale(first packet
time); the lookahead packet is the last one examined by the call (the
final buffered packet, which itself stays pending). -/
theorem c6_duration_telescoping (f : TrackFragmenter) (h2 : 2 ≤ f.pending.length)
    (d : fragmentWithData) (hd : (makeFragment f).1 = some d)
    (hmono : ∀ pr ∈ pairsOf f.pending, pr.1.time < pr.2.time)
    (hfit32 : ∀ pr ∈ pairsOf f.pending,
        ToScale pr.2.time f.timeScale - ToScale pr.1.time f.timeScale < 4294967296)
    (hfit64 : ∀ q ∈ f.pending, ToScale q.time f.timeScale < 18446744073709551616) :
    d.trackFrag.run.entries.map (fun e => e.duration)
        = (pairsOf f.pending).map
            (fun pr => ToScale pr.2.time f.timeScale - ToScale pr.1.time f.timeScale)
    ∧ (d.trackFrag.run.entries.map (fun e => e.duration)).sum
        = ToScale ((f.pending.getLast?).getD default).time f.timeScale
          - ToScale (f.pending.headD default).time f.timeScale := by
  obtain ⟨p, n0, rest, hp⟩ : ∃ p n0 rest, f.pending = p :: n0 :: rest := by
    cases hpd : f.pending with
    | nil => rw [hpd] at h2; simp at h2
    | cons a t =>
      cases t with
      | nil => rw [hpd] at h2; simp at h2
      | cons b r => exact ⟨a, b, r, rfl⟩
  obtain ⟨t1, hdt, _, _, hent, _, _, _⟩ := makeFragment_char f p n0 rest hp d hd
  have hscale : ∀ pr ∈ pairsOf f.pending,
      ToScale pr.1.time f.timeScale ≤ ToScale pr.2.time f.timeScale := by
    intro pr hpr
    exact Nat.div_le_div_right (Nat.mul_le_mul_right _ (le_of_lt (hmono pr hpr)))
  have hmem2 : ∀ pr, pr ∈ pairsOf f.pending → pr.2 ∈ f.pending := by
    rw [hp]
    intro pr hpr
    simp only [pairsOf] at hpr
    have h := (List.of_mem_zip hpr).2
    simp only [List.tail_cons] at h
    exact List.mem_cons_of_mem _ h
  have hmap : d.trackFrag.run.entries.map (fun e => e.duration)
      = (pairsOf f.pending).map
          (fun pr => ToScale pr.2.time f.timeScale - ToScale pr.1.time f.timeScale) := by
    rw [hdt, postFlags_entries, hent, ← hp, List.map_map]
    refine List.map_congr_left ?_
    intro pr hpr
    show u32 ((u64 (ToScale pr.2.time f.timeScale) + 18446744073709551616
        - u64 (ToScale pr.1.time f.timeScale)) % 18446744073709551616) = _
    exact u32_wrap_sub _ _ (hscale pr hpr) (hfit64 _ (hmem2 pr hpr)) (hfit32 pr hpr)
  refine ⟨hmap, ?_⟩
  rw [hmap]
  exact (duration_sum_telescope (fun q => ToScale q.time f.timeScale) f.pending hscale).1

/-- C6 counterexample: with timescale 10^9 (nanosecond ticks) and the
two packet times 0 and 4294967296, the scaled delta is 2^32; the
emitted duration is its 32-bit truncation 0, not the claimed
ToScale difference, although the times are strictly increasing. -/
theorem c6_truncation_counterexample :
    ∃ d, (makeFragment
        { trackID := 1, timeScale := 1000000000, isVideo := false,
          pending := [{ time := 0, data := [] },
                      { time := 4294967296, data := [] }] }).1 = some d
      ∧ d.trackFrag.run.entries.map (fun e => e.duration) = [0]
      ∧ (pairsOf [({ time := 0, data := [] } : Packet),
            { time := 4294967296, data := [] }]).map
          (fun pr => ToScale pr.2.time 1000000000 - ToScale pr.1.time 1000000000)
          = [4294967296]
      ∧ ([0] : List Nat) ≠ [4294967296]
      ∧ ∀ pr ∈ pairsOf [({ time := 0, data := [] } : Packet),
            { time := 4294967296, data := [] }], pr.1.time < pr.2.time := by
  refine ⟨_, rfl, by decide, by decide, by decide, by decide⟩

/-- C6 witness: three packets at 0, 1ms, 3ms with timescale 1000 give
durations 1 and 2 summing to ToScale(3ms) - ToScale(0) = 3. -/
theorem c6_duration_telescoping_witness :
    ∃ d, (makeFragment
        { trackID := 1, timeScale := 1000, isVideo := false,
          pending := [{ time := 0, data := [1] }, { time := 1000000, data := [2] },
                      { time := 3000000, data := [3] }] }).1 = some d
      ∧ d.trackFrag.run.entries.map (fun e => e.duration)
          = (pairsOf [({ time := 0, data := [1] } : Packet), { time := 1000000, data := [2] },
              { time := 3000000, data := [3] }]).map
              (fun pr => ToScale pr.2.time 1000 - ToScale pr.1.time 1000)
      ∧ (d.trackFrag.run.entries.map (fun e => e.duration)).sum
          = ToScale 3000000 1000 - ToScale 0 1000 :=
  ⟨_, rfl,
    (c6_duration_telescoping
      { trackID := 1, timeScale := 1000, isVideo := false,
        pending := [{ time := 0, data := [1] }, { time := 1000000, data := [2] },
                    { time := 3000000, data := [3] }] }
      (by decide) _ rfl (by decide) (by decide) (by decide)).1,
    (c6_duration_telescoping
      { trackID := 1, timeScale := 1000, isVideo := false,
        pending := [{ time := 0, data := [1] }, { time := 1000000, data := [2] },
                    { time := 3000000, data := [3] }] }
      (by decide) _ rfl (by decide) (by decide) (by decide)).2⟩

/-! ## C8 helper lemmas: strconv and splitting -/

theorem natToBase_ne_nil (b n : Nat) : natToBase b n ≠ [] := by
  rw [natToBase]
  split <;> simp

theorem digitChar_ne : ∀ v < 36, digitChar v ≠ '.' ∧ digitChar v ≠ '-' ∧ digitChar v ≠ '+' := by
  decide

theorem digitVal_digitChar : ∀ v < 36, digitVal (digitChar v) = some v := by
  decide

theorem natToBase_digits (b : Nat) (hb2 : 2 ≤ b) (hb36 : b ≤ 36) :
    ∀ n, ∀ c ∈ natToBase b n, ∃ v, v < 36 ∧ c = digitChar v := by
  intro n
  induction n using Nat.strong_induction_on with
  | _ n ih =>
    intro c hc
    rw [natToBase] at hc
    split at hc
    · rename_i h
      simp at hc
      subst hc
      exact ⟨n, by omega, rfl⟩
    · rename_i h
      rcases List.mem_append.mp hc with h1 | h1
      · exact ih (n / b) (Nat.div_lt_self (by omega) (by omega)) c h1
      · simp at h1
        subst h1
        exact ⟨n % b, lt_of_lt_of_le (Nat.mod_lt _ (by omega)) hb36, rfl⟩

theorem natToBase_no_dot (b : Nat) (hb2 : 2 ≤ b) (hb36 : b ≤ 36) (n : Nat) :
    '.' ∉ natToBase b n := by
  intro hmem
  obtain ⟨v, hv, hc⟩ := natToBase_digits b hb2 hb36 n _ hmem
  exact (digitChar_ne v hv).1 hc.symm

theorem formatInt_no_dot (b : Nat) (hb2 : 2 ≤ b) (hb36 : b ≤ 36) (i : Int) :
    '.' ∉ FormatIntGo i b := by
  intro hmem
  unfold FormatIntGo at hmem
  split at hmem
  · rcases List.mem_cons.mp hmem with h | h
    · exact absurd h (by decide)
    · exact natToBase_no_dot b hb2 hb36 _ h
  · exact natToBase_no_dot b hb2 hb36 _ hmem

theorem parseDigits_append (b : Nat) (xs ys : List Char) :
    ∀ acc, parseDigits b (xs ++ ys) acc
      = (parseDigits b xs acc).bind (fun a => parseDigits b ys a) := by
  induction xs with
  | nil => intro acc; simp [parseDigits]
  | cons c cs ih =>
    intro acc
    simp only [List.cons_append, parseDigits]
    cases digitVal c with
    | none => simp
    | some v => by_cases hv : v < b <;> simp [hv, ih]

theorem parse_natToBase (b : Nat) (hb2 : 2 ≤ b) (hb36 : b ≤ 36) :
    ∀ n, parseDigits b (natToBase b n) 0 = some n := by
  intro n
  induction n using Nat.strong_induction_on with
  | _ n ih =>
    rw [natToBase]
    split
    · rename_i h
      have hn36 : n < 36 := by omega
      have hnb : n < b := by omega
      simp [parseDigits, digitVal_digitChar n hn36, hnb]
    · rename_i h
      rw [parseDigits_append]
      rw [ih (n / b) (Nat.div_lt_self (by omega) (by omega))]
      have hm36 : n % b < 36 := lt_of_lt_of_le (Nat.mod_lt _ (by omega)) hb36
      have hmb : n % b < b := Nat.mod_lt _ (by omega)
      simp [parseDigits, digitVal_digitChar _ hm36, hmb]
      rw [Nat.mul_comm]
      exact Nat.div_add_mod n b

theorem ParseIntGo_FormatIntGo (b : Nat) (hb2 : 2 ≤ b) (hb36 : b ≤ 36) (i : Int)
    (hlow : -(2 ^ 63) ≤ i) (hhigh : i < 2 ^ 63) :
    ParseIntGo b 64 (FormatIntGo i b) = some i := by
  by_cases hneg : i < 0
  · simp only [FormatIntGo, if_pos hneg, ParseIntGo]
    have hle : i.natAbs ≤ 2 ^ (64 - 1) := by norm_num; omega
    simp only [true_or, if_true]
    rw [if_neg (natToBase_ne_nil b i.natAbs), parse_natToBase b hb2 hb36]
    simp only [if_pos hle]
    congr 1
    omega
  · simp only [FormatIntGo, if_neg hneg]
    obtain ⟨c, cs, hccs⟩ : ∃ c cs, natToBase b i.toNat = c :: cs := by
      cases hnb : natToBase b i.toNat with
      | nil => exact absurd hnb (natToBase_ne_nil b _)
      | cons c cs => exact ⟨c, cs, rfl⟩
    obtain ⟨v, hv36, hcv⟩ :=
      natToBase_digits b hb2 hb36 i.toNat c (hccs ▸ List.mem_cons_self c cs)
    have hcm : ¬(c = '-' ∨ c = '+') := by
      rintro (h | h)
      · exact (digitChar_ne v hv36).2.1 (hcv ▸ h)
      · exact (digitChar_ne v hv36).2.2 (hcv ▸ h)
    have hcd : ¬ c = '-' := fun h => hcm (Or.inl h)
    have hle : i.toNat ≤ 2 ^ (64 - 1) - 1 := by norm_num; omega
    rw [hccs]
    simp only [ParseIntGo]
    rw [if_neg hcm]
    rw [if_neg (by simp)]
    rw [← hccs, parse_natToBase b hb2 hb36]
    simp [hcd, hle]
    omega

theorem splitOnDot_no_dot : ∀ a : List Char, '.' ∉ a → splitOnDot a = [a] := by
  intro a
  induction a with
  | nil => intro _; rfl
  | cons c cs ih =>
    intro h
    have hc : ¬ c = '.' := fun hh => h (hh ▸ List.mem_cons_self c cs)
    rw [splitOnDot, if_neg hc, ih (fun hm => h (List.mem_cons_of_mem _ hm))]

theorem splitOnDot_append : ∀ a : List Char, ∀ bs : List Char, '.' ∉ a →
    splitOnDot (a ++ '.' :: bs) = a :: splitOnDot bs := by
  intro a bs
  induction a with
  | nil => intro _; simp [splitOnDot]
  | cons c cs ih =>
    intro h
    have hc : ¬ c = '.' := fun hh => h (hh ▸ List.mem_cons_self c cs)
    simp only [List.cons_append, splitOnDot, if_neg hc, List.append_eq]
    rw [ih (fun hm => h (List.mem_cons_of_mem _ hm))]

theorem ParseName_whole (i : Int) (hlow : -(2 ^ 63) ≤ i) (hhigh : i < 2 ^ 63) :
    ParseName (FormatIntGo i 36 ++ '.' :: ['m', '4', 's']) = (i, -1, true) := by
  have hnd : '.' ∉ FormatIntGo i 36 := formatInt_no_dot 36 (by norm_num) (by norm_num) i
  have hsplit : splitOnDot (FormatIntGo i 36 ++ '.' :: ['m', '4', 's'])
      = [FormatIntGo i 36, ['m', '4', 's']] := by
    rw [splitOnDot_append _ _ hnd, splitOnDot_no_dot _ (by decide)]
  simp [ParseName, hsplit,
    ParseIntGo_FormatIntGo 36 (by norm_num) (by norm_num) i hlow hhigh]

theorem ParseName_part (i pt : Int) (hlow : -(2 ^ 63) ≤ i) (hhigh : i < 2 ^ 63)
    (hplow : 0 ≤ pt) (hphigh : pt < 2 ^ 63) :
    ParseName (FormatIntGo i 36 ++ '.' :: (FormatIntGo pt 10 ++ '.' :: ['m', '4', 's']))
      = (i, pt, true) := by
  have hnd : '.' ∉ FormatIntGo i 36 := formatInt_no_dot 36 (by norm_num) (by norm_num) i
  have hnd10 : '.' ∉ FormatIntGo pt 10 := formatInt_no_dot 10 (by norm_num) (by norm_num) pt
  have hsplit : splitOnDot (FormatIntGo i 36 ++ '.' :: (FormatIntGo pt 10 ++ '.' :: ['m', '4', 's']))
      = [FormatIntGo i 36, FormatIntGo pt 10, ['m', '4', 's']] := by
    rw [splitOnDot_append _ _ hnd, splitOnDot_append _ _ hnd10,
      splitOnDot_no_dot _ (by decide)]
  simp [ParseName, hsplit,
    ParseIntGo_FormatIntGo 36 (by norm_num) (by norm_num) i hlow hhigh,
    ParseIntGo_FormatIntGo 10 (by norm_num) (by norm_num) pt (by omega) hphigh]

theorem ParseName_ok_iff (name : List Char) :
    (ParseName name).2.2 = true
      ↔ (((splitOnDot name).length = 2 ∨ (splitOnDot name).length = 3)
          ∧ (splitOnDot name).getLastD [] = ['m', '4', 's']
          ∧ (∃ j, ParseIntGo 36 64 ((splitOnDot name).getD 0 []) = some j)
          ∧ ((splitOnDot name).length = 3 →
              ∃ q, ParseIntGo 10 64 ((splitOnDot name).getD 1 []) = some q)) := by
  simp only [ParseName]
  by_cases hshape : (splitOnDot name).length < 2 ∨ 3 < (splitOnDot name).length
      ∨ (splitOnDot name).getLastD [] ≠ ['m', '4', 's']
  · rw [if_pos hshape]
    constructor
    · intro h; exact absurd h (by decide)
    · rintro ⟨hlen, hlast, -, -⟩
      rcases hshape with h | h | h
      · rcases hlen with h2 | h3 <;> omega
      · rcases hlen with h2 | h3 <;> omega
      · exact absurd hlast h
  · rw [if_neg hshape]
    push_neg at hshape
    obtain ⟨h2, h3, hlast⟩ := hshape
    cases hid : ParseIntGo 36 64 ((splitOnDot name).getD 0 []) with
    | none =>
      simp only []
      constructor
      · intro h; exact absurd h (by decide)
      · rintro ⟨-, -, ⟨j, hj⟩, -⟩
        exact Option.noConfusion hj
    | some j =>
      by_cases hl3 : (splitOnDot name).length = 3
      · cases hpt : ParseIntGo 10 64 ((splitOnDot name).getD 1 []) with
        | none =>
          simp only []
          rw [if_pos hl3]
          constructor
          · intro h; exact absurd h (by simp)
          · rintro ⟨-, -, -, himp⟩
            obtain ⟨q, hq⟩ := himp hl3
            exact Option.noConfusion hq
        | some q =>
          simp only []
          rw [if_pos hl3]
          constructor
          · intro _
            exact ⟨Or.inr hl3, hlast, ⟨j, rfl⟩, fun _ => ⟨q, rfl⟩⟩
          · intro _; rfl
      · simp only []
        rw [if_neg hl3]
        constructor
        · intro _
          refine ⟨Or.inl (by omega), hlast, ⟨j, rfl⟩, fun h => absurd h hl3⟩
        · intro _; rfl

/-- C8 (amended): ParseName is the exact inverse of the filename
convention: every in-range id round-trips through the whole-segment
name, every in-range id and nonnegative part index round-trip through
the part name, and a name yields ok exactly when it splits on dots
into 2 or 3 components whose last is the literal m4s and whose id
(base 36) and, when present, part (base 10) components parse; in
particular "3k.m4s" parses with ok and part -1 — its id decodes to
128 in base 36 (not 123 as the claim's example states) — "3k.2.m4s"
gives part 2, and "3k.mp4", "3k" and "a.b.c.m4s" are rejected. -/
theorem c8_parseName_inverse :
    (∀ i : Int, -(2 ^ 63) ≤ i → i < 2 ^ 63 →
        ParseName (FormatIntGo i 36 ++ '.' :: ['m', '4', 's']) = (i, -1, true))
    ∧ (∀ i pt : Int, -(2 ^ 63) ≤ i → i < 2 ^ 63 → 0 ≤ pt → pt < 2 ^ 63 →
        ParseName (FormatIntGo i 36 ++ '.' :: (FormatIntGo pt 10 ++ '.' :: ['m', '4', 's']))
          = (i, pt, true))
    ∧ (∀ name : List Char, (ParseName name).2.2 = true
        ↔ (((splitOnDot name).length = 2 ∨ (splitOnDot name).length = 3)
            ∧ (splitOnDot name).getLastD [] = ['m', '4', 's']
            ∧ (∃ j, ParseIntGo 36 64 ((splitOnDot name).getD 0 []) = some j)
            ∧ ((splitOnDot name).length = 3 →
                ∃ q, ParseIntGo 10 64 ((splitOnDot name).getD 1 []) = some q)))
    ∧ ParseName ['3', 'k', '.', 'm', '4', 's'] = (128, -1, true)
    ∧ ParseName ['3', 'k', '.', '2', '.', 'm', '4', 's'] = (128, 2, true)
    ∧ (ParseName ['3', 'k', '.', 'm', 'p', '4']).2.2 = false
    ∧ (ParseName ['3', 'k']).2.2 = false
    ∧ (ParseName ['a', '.', 'b', '.', 'c', '.', 'm', '4', 's']).2.2 = false :=
  ⟨fun i h1 h2 => ParseName_whole i h1 h2,
   fun i pt h1 h2 h3 h4 => ParseName_part i pt h1 h2 h3 h4,
   fun name => ParseName_ok_iff name,
   by decide, by decide, by decide, by decide, by decide⟩

/-- C8 counterexample: the claim's concrete example asserts that
"3k.m4s" yields id 123, but base-36 "3k" is 3*36+20 = 128; ParseName
returns (128, -1, true). -/
theorem c8_base36_counterexample :
    ParseName ['3', 'k', '.', 'm', '4', 's'] ≠ ((123 : Int), (-1 : Int), true)
    ∧ ParseName ['3', 'k', '.', 'm', '4', 's'] = ((128 : Int), (-1 : Int), true) := by
  constructor <;> decide

/-- C8 witness: the round-trip conjunct applied at id 128 (whose
base-36 rendering is "3k"). -/
theorem c8_parseName_inverse_witness :
    ParseName (FormatIntGo 128 36 ++ '.' :: ['m', '4', 's']) = (128, -1, true) :=
  c8_parseName_inverse.1 128 (by norm_num) (by norm_num)

/-! ## C10 -/

theorem natToBase_digits_lt (b : Nat) (hb2 : 2 ≤ b) :
    ∀ n, ∀ c ∈ natToBase b n, ∃ v, v < b ∧ c = digitChar v := by
  intro n
  induction n using Nat.strong_induction_on with
  | _ n ih =>
    intro c hc
    rw [natToBase] at hc
    split at hc
    · rename_i h
      simp at hc
      subst hc
      exact ⟨n, by omega, rfl⟩
    · rename_i h
      rcases List.mem_append.mp hc with h1 | h1
      · exact ih (n / b) (Nat.div_lt_self (by omega) (by omega)) c h1
      · simp at h1
        subst h1
        exact ⟨n % b, Nat.mod_lt _ (by omega), rfl⟩

theorem natToBase_length_le (b : Nat) (hb : 2 ≤ b) :
    ∀ n k, 1 ≤ k → n < b ^ k → (natToBase b n).length ≤ k := by
  intro n
  induction n using Nat.strong_induction_on with
  | _ n ih =>
    intro k hk hn
    rw [natToBase]
    split
    · simpa using hk
    · rename_i h
      cases k with
      | zero => omega
      | succ k1 =>
        cases k1 with
        | zero =>
          rw [pow_one] at hn
          omega
        | succ k2 =>
          rw [List.length_append]
          have hdiv : n / b < b ^ (k2 + 1) := by
            rw [Nat.div_lt_iff_lt_mul (by omega : 0 < b)]
            calc n < b ^ (k2 + 1 + 1) := hn
            _ = b ^ (k2 + 1) * b := by rw [pow_succ]
          have := ih (n / b) (Nat.div_lt_self (by omega) (by omega)) (k2 + 1) (by omega) hdiv
          simp only [List.length_singleton]
          omega

theorem digitChar_base10 : ∀ v < 10, (digitChar v).isDigit = true ∧ digitChar v ≠ '.' := by
  decide

/-- C10: in the playlist text rendered by Segment.Format, every
EXT-X-PART line's DURATION value is printed by the six-fractional-digit
float rendering (Go percent-f) while the EXTINF duration of the very
same segment is printed with no fractional digits at all (Go
percent-dot-f): the two duration fields use different precisions. -/
theorem c10_format_precision :
    (∀ ns : Int, ∃ ip fd, fmtF6 ns = ip ++ '.' :: fd ∧ fd.length = 6
        ∧ (∀ c ∈ fd, c.isDigit = true) ∧ '.' ∉ ip)
    ∧ (∀ ns : Int, '.' ∉ fmtF0 ns)
    ∧ (∀ (bn : List Char) (i : Nat) (part : RawFragment), partLine bn i part
        = "#EXT-X-PART:DURATION=".toList ++ fmtF6 part.duration ++ [',']
          ++ (if part.independent then "INDEPENDENT=YES,".toList else [])
          ++ "URI=\"".toList ++ bn ++ '.' :: natToBase 10 i ++ ".m4s\"".toList ++ ['\n'])
    ∧ (∀ (bn : List Char) (dur : Int), extinfLines bn dur
        = "#EXTINF:".toList ++ fmtF0 dur ++ ",\n".toList ++ bn ++ ".m4s\n".toList)
    ∧ (∀ (s : Segment) (b : Bool), Segment.Format s b
        = (if s.programTime ≠ [] then
            "#EXT-X-PROGRAM-DATE-TIME:".toList ++ s.programTime ++ ['\n'] else [])
          ++ (if s.dcn then "#EXT-X-DISCONTINUITY\n".toList else [])
          ++ (if b then
                ((List.range s.parts.length).map fun i =>
                  partLine s.baseName i (s.parts.getD i default)).flatten
              else [])
          ++ (if s.final then extinfLines s.baseName s.dur else [])) := by
  refine ⟨?_, ?_, fun bn i part => rfl, fun bn dur => rfl, fun s b => rfl⟩
  · intro ns
    refine ⟨(if ns < 0 then ['-'] else []) ++ natToBase 10 ((ns.natAbs + 500) / 1000 / 1000000),
      padZeros6 (natToBase 10 ((ns.natAbs + 500) / 1000 % 1000000)), ?_, ?_, ?_, ?_⟩
    · simp [fmtF6]
    · have hlt : (ns.natAbs + 500) / 1000 % 1000000 < 10 ^ 6 := by
        have := Nat.mod_lt ((ns.natAbs + 500) / 1000) (by norm_num : 0 < 1000000)
        norm_num
        omega
      have hlen := natToBase_length_le 10 (by norm_num) _ 6 (by norm_num) hlt
      simp [padZeros6]
      omega
    · intro c hc
      simp only [padZeros6] at hc
      rcases List.mem_append.mp hc with h1 | h1
      · rw [List.eq_of_mem_replicate h1]
        decide
      · obtain ⟨v, hv, hcv⟩ := natToBase_digits_lt 10 (by norm_num) _ c h1
        subst hcv
        exact (digitChar_base10 v hv).1
    · intro hmem
      rcases List.mem_append.mp hmem with h1 | h1
      · split at h1 <;> simp at h1
      · obtain ⟨v, hv, hcv⟩ := natToBase_digits_lt 10 (by norm_num) _ _ h1
        exact (digitChar_base10 v hv).2 hcv.symm
  · intro ns hmem
    simp only [fmtF0] at hmem
    rcases List.mem_append.mp hmem with h1 | h1
    · split at h1 <;> simp at h1
    · obtain ⟨v, hv, hcv⟩ := natToBase_digits_lt 10 (by norm_num) _ _ h1
      exact (digitChar_base10 v hv).2 hcv.symm

/-! ## C9 -/

/-- C9: the post-serialization data-offset reassignment in
writeFragment's second loop has no effect on the emitted bytes: the
output equals that of the spec-described variant without the
reassignment, for every input. -/
theorem c9_reassign_noop (tracks : List fragmentWithData) (seqNum : Nat) :
    (writeFragment tracks seqNum).1 = (writeFragmentSpec tracks seqNum).1 := rfl

/-! ## C2 helper lemmas: byte-level reading of the emitted fragment -/

theorem u32be_length (v : Nat) : (u32be v).length = 4 := rfl

theorem readU32BE_append_right (P R : List Nat) (k : Nat) (h : P.length ≤ k) :
    readU32BE (P ++ R) k = readU32BE R (k - P.length) := by
  unfold readU32BE
  rw [List.getD_append_right P R 0 k h,
    List.getD_append_right P R 0 (k+1) (by omega),
    List.getD_append_right P R 0 (k+2) (by omega),
    List.getD_append_right P R 0 (k+3) (by omega)]
  have e1 : k + 1 - P.length = k - P.length + 1 := by omega
  have e2 : k + 2 - P.length = k - P.length + 2 := by omega
  have e3 : k + 3 - P.length = k - P.length + 3 := by omega
  rw [e1, e2, e3]

theorem readU32BE_strip (X Y : List Nat) (k : Nat) :
    readU32BE (X ++ Y) (X.length + k) = readU32BE Y k := by
  rw [readU32BE_append_right X Y (X.length + k) (by omega)]
  congr 1
  omega

theorem readU32BE_strip4 (v : Nat) (Y : List Nat) (k : Nat) :
    readU32BE (u32be v ++ Y) (4 + k) = readU32BE Y k := by
  have := readU32BE_strip (u32be v) Y k
  rwa [u32be_length] at this

theorem readU32BE_u32be_head (v : Nat) (R : List Nat) (hv : v < 4294967296) :
    readU32BE (u32be v ++ R) 0 = v := by
  simp only [readU32BE, u32be, List.cons_append, List.nil_append,
    List.getD_cons_zero, List.getD_cons_succ]
  omega

theorem readU32BE_u32be_mod (v : Nat) (R : List Nat) :
    readU32BE (u32be v ++ R) 0 = u32 v := by
  simp only [readU32BE, u32be, u32, List.cons_append, List.nil_append,
    List.getD_cons_zero, List.getD_cons_succ]
  omega

theorem payloadBytes_length (t : fragmentWithData) :
    (payloadBytes t).length = payloadLen t := by
  simp only [payloadBytes, payloadLen, List.length_flatten, List.map_map]
  rfl

theorem sumPayload_cons (t : fragmentWithData) (rest : List fragmentWithData) :
    sumPayload (t :: rest) = payloadLen t + sumPayload rest := by
  simp [sumPayload]

theorem payload_flatten_length (tracks : List fragmentWithData) :
    ((tracks.map payloadBytes).flatten).length = sumPayload tracks := by
  rw [List.length_flatten, List.map_map]
  simp only [sumPayload]
  exact congrArg List.sum
    (List.map_congr_left fun t _ => payloadBytes_length t)

theorem trunBytes_length_set (r : TrackFragRun) (v : Nat) :
    (trunBytes { r with dataOffset := v }).length = (trunBytes r).length := by
  simp [trunBytes, fullBoxBytes, List.length_append, u32be, apply_ite List.length]

theorem trafBytes_length_set (t : TrackFrag) (v : Nat) :
    (trafBytes { t with run := { t.run with dataOffset := v } }).length
      = (trafBytes t).length := by
  simp only [trafBytes, boxBytes, List.length_append]
  have h := trunBytes_length_set t.run v
  simp only [List.length_append, u32be] at h ⊢
  simp [h]

theorem assignLoop_final (tracks : List fragmentWithData) :
    ∀ off, (assignLoop off tracks).2 = off + sumPayload tracks := by
  induction tracks with
  | nil => intro off; simp [assignLoop, sumPayload]
  | cons t rest ih =>
    intro off
    simp [assignLoop, ih, sumPayload_cons]
    omega

theorem assignLoop_length (tracks : List fragmentWithData) :
    ∀ off, (assignLoop off tracks).1.length = tracks.length := by
  induction tracks with
  | nil => intro off; simp [assignLoop]
  | cons t rest ih => intro off; simp [assignLoop, ih]

theorem assignLoop_trafLens (tracks : List fragmentWithData) :
    ∀ off, ((assignLoop off tracks).1).map (fun t => (trafBytes t).length)
      = tracks.map (fun t => (trafBytes t.trackFrag).length) := by
  induction tracks with
  | nil => intro off; simp [assignLoop]
  | cons t rest ih =>
    intro off
    simp only [assignLoop, List.map_cons, ih]
    rw [trafBytes_length_set]

theorem assignLoop_getD (tracks : List fragmentWithData) :
    ∀ off i, i < tracks.length →
    (assignLoop off tracks).1.getD i default
      = { (tracks.getD i default).trackFrag with
          run := { ((tracks.getD i default).trackFrag).run with
            dataOffset := u32 (off + sumPayload (tracks.take i)) } } := by
  induction tracks with
  | nil => intro off i hi; simp at hi
  | cons t rest ih =>
    intro off i hi
    cases i with
    | zero => simp [assignLoop, sumPayload]
    | succ j =>
      simp only [assignLoop, List.getD_cons_succ, List.take_succ_cons]
      rw [ih (off + payloadLen t) j (by simpa using hi)]
      have : off + payloadLen t + sumPayload (rest.take j)
          = off + sumPayload (t :: rest.take j) := by
        rw [sumPayload_cons]; omega
      rw [this]

theorem moofBytes_length_formula (m : MovieFrag) :
    (moofBytes m).length = 24 + (m.tracks.map (fun t => (trafBytes t).length)).sum := by
  simp [moofBytes, boxBytes, mfhdBytes, fullBoxBytes, u32be, List.length_append,
    List.length_flatten, List.map_map, Function.comp]
  have h : List.map (List.length ∘ trafBytes) m.tracks
      = List.map (fun t => (trafBytes t).length) m.tracks := rfl
  rw [h]
  omega

theorem trafListLen_cons (t : TrackFrag) (l : List TrackFrag) :
    trafListLen (t :: l) = (trafBytes t).length + trafListLen l := by
  simp [trafListLen]

theorem u32_u32 (x : Nat) : u32 (u32 x) = u32 x := by
  simp only [u32]
  omega

theorem moofAssigned_len (tracks : List fragmentWithData) (seqNum : Nat) :
    moofLen (moofAssigned tracks seqNum)
      = moofLen { header := { seqnum := u32 seqNum }, tracks := tracks.map fun t => t.trackFrag } := by
  simp only [moofLen, moofAssigned, moofBytes_length_formula]
  rw [assignLoop_trafLens, List.map_map]
  rfl

theorem writeFragment_out (tracks : List fragmentWithData) (seqNum : Nat) :
    (writeFragment tracks seqNum).1
      = moofBytes (moofAssigned tracks seqNum)
        ++ u32be (u32 (sumPayload tracks + 8)) ++ u32be mdatTag
        ++ (tracks.map payloadBytes).flatten := by
  have h : ∀ x : Nat, x + sumPayload tracks - x + 8 = sumPayload tracks + 8 :=
    fun x => by omega
  simp only [writeFragment, moofAssigned, assignLoop_final, h, List.append_assoc]

theorem writeFragment_length (tracks : List fragmentWithData) (seqNum : Nat) :
    (writeFragment tracks seqNum).1.length
      = dataBaseOf tracks seqNum + sumPayload tracks := by
  rw [writeFragment_out]
  simp only [List.length_append, u32be_length, payload_flatten_length]
  have h := moofAssigned_len tracks seqNum
  simp only [moofLen] at h
  rw [h]
  simp only [dataBaseOf, moofLen]

theorem writeFragment_mdat_read (tracks : List fragmentWithData) (seqNum : Nat) :
    readU32BE (writeFragment tracks seqNum).1 (dataBaseOf tracks seqNum - 8)
      = u32 (sumPayload tracks + 8) := by
  rw [writeFragment_out]
  have hlen : dataBaseOf tracks seqNum - 8 = (moofBytes (moofAssigned tracks seqNum)).length := by
    have h := moofAssigned_len tracks seqNum
    simp only [moofLen] at h
    rw [dataBaseOf, moofLen, ← h]
    omega
  rw [hlen, List.append_assoc, List.append_assoc]
  have hstrip := readU32BE_strip (moofBytes (moofAssigned tracks seqNum))
    (u32be (u32 (sumPayload tracks + 8)) ++ (u32be mdatTag ++ (tracks.map payloadBytes).flatten)) 0
  simp only [Nat.add_zero] at hstrip
  rw [hstrip, readU32BE_u32be_mod, u32_u32]

theorem trafs_read (t : TrackFrag) (Pre R : List Nat)
    (hflag : t.run.flags.testBit 0 = true) :
    readU32BE (Pre ++ (trafBytes t ++ R))
        (Pre.length + (8 + (tfhdBytes t.header).length + (tfdtBytes t.decodeTime).length + 16))
      = u32 t.run.dataOffset := by
  rw [readU32BE_strip]
  simp only [trafBytes, boxBytes, List.append_assoc]
  have hk : 8 + (tfhdBytes t.header).length + (tfdtBytes t.decodeTime).length + 16
      = 4 + (4 + ((tfhdBytes t.header).length + ((tfdtBytes t.decodeTime).length + 16))) := by
    omega
  rw [hk, readU32BE_strip4, readU32BE_strip4, readU32BE_strip, readU32BE_strip]
  simp only [trunBytes, fullBoxBytes, hflag, if_true, List.append_assoc]
  have h16 : (16 : Nat) = 4 + (4 + (4 + (4 + 0))) := by omega
  rw [h16, readU32BE_strip4, readU32BE_strip4, readU32BE_strip4, readU32BE_strip4]
  exact readU32BE_u32be_mod _ _

theorem moof_tracks_read (ts : List TrackFrag) :
    ∀ (i : Nat), i < ts.length →
    ∀ (Pre R : List Nat), (ts.getD i default).run.flags.testBit 0 = true →
    readU32BE (Pre ++ ((ts.map trafBytes).flatten ++ R))
        (Pre.length + (trafListLen (ts.take i)
          + (8 + (tfhdBytes (ts.getD i default).header).length
            + (tfdtBytes (ts.getD i default).decodeTime).length + 16)))
      = u32 (ts.getD i default).run.dataOffset := by
  induction ts with
  | nil => intro i hi; simp at hi
  | cons t rest ih =>
    intro i hi Pre R hflag
    cases i with
    | zero =>
      simp only [List.getD_cons_zero] at hflag ⊢
      simp only [List.take_zero, trafListLen, List.map_nil, List.sum_nil, Nat.zero_add,
        List.map_cons, List.flatten_cons, List.append_assoc]
      exact trafs_read t Pre _ hflag
    | succ j =>
      simp only [List.getD_cons_succ] at hflag ⊢
      have hj : j < rest.length := by simpa using hi
      have := ih j hj (Pre ++ trafBytes t) R hflag
      simp only [List.take_succ_cons, trafListLen_cons, List.map_cons, List.flatten_cons,
        List.append_assoc, List.length_append] at this ⊢
      have hpos : Pre.length + ((trafBytes t).length + trafListLen (rest.take j)
            + (8 + (tfhdBytes (rest.getD j default).header).length
              + (tfdtBytes (rest.getD j default).decodeTime).length + 16))
          = Pre.length + (trafBytes t).length + (trafListLen (rest.take j)
            + (8 + (tfhdBytes (rest.getD j default).header).length
              + (tfdtBytes (rest.getD j default).decodeTime).length + 16)) := by
        omega
      rw [hpos]
      exact this

theorem writeFragment_offset_read (tracks : List fragmentWithData) (seqNum : Nat)
    (i : Nat) (hi : i < tracks.length)
    (hflag : ((tracks.getD i default).trackFrag).run.flags.testBit 0 = true) :
    readU32BE (writeFragment tracks seqNum).1 (dataOffsetPos (moofAssigned tracks seqNum) i)
      = u32 (dataBaseOf tracks seqNum + sumPayload (tracks.take i)) := by
  rw [writeFragment_out]
  have hi2 : i < (moofAssigned tracks seqNum).tracks.length := by
    simp only [moofAssigned]
    rw [assignLoop_length]
    exact hi
  have hgetD : (moofAssigned tracks seqNum).tracks.getD i default
      = { (tracks.getD i default).trackFrag with
          run := { ((tracks.getD i default).trackFrag).run with
            dataOffset := u32 (dataBaseOf tracks seqNum + sumPayload (tracks.take i)) } } := by
    simp only [moofAssigned]
    rw [assignLoop_getD tracks _ i hi]
    rfl
  have hflag2 : ((moofAssigned tracks seqNum).tracks.getD i default).run.flags.testBit 0 = true := by
    rw [hgetD]
    exact hflag
  have hread := moof_tracks_read (moofAssigned tracks seqNum).tracks i hi2
    (u32be (8 + (mfhdBytes (moofAssigned tracks seqNum).header
        ++ ((moofAssigned tracks seqNum).tracks.map trafBytes).flatten).length)
      ++ u32be 0x6d6f6f66 ++ mfhdBytes (moofAssigned tracks seqNum).header)
    (u32be (u32 (sumPayload tracks + 8)) ++ (u32be mdatTag ++ (tracks.map payloadBytes).flatten))
    hflag2
  have hshape : moofBytes (moofAssigned tracks seqNum)
        ++ u32be (u32 (sumPayload tracks + 8)) ++ u32be mdatTag
        ++ (tracks.map payloadBytes).flatten
      = (u32be (8 + (mfhdBytes (moofAssigned tracks seqNum).header
            ++ ((moofAssigned tracks seqNum).tracks.map trafBytes).flatten).length)
          ++ u32be 0x6d6f6f66 ++ mfhdBytes (moofAssigned tracks seqNum).header)
        ++ (((moofAssigned tracks seqNum).tracks.map trafBytes).flatten
          ++ (u32be (u32 (sumPayload tracks + 8)) ++ (u32be mdatTag ++ (tracks.map payloadBytes).flatten))) := by
    simp [moofBytes, boxBytes, List.append_assoc]
  have hpos : dataOffsetPos (moofAssigned tracks seqNum) i
      = (u32be (8 + (mfhdBytes (moofAssigned tracks seqNum).header
            ++ ((moofAssigned tracks seqNum).tracks.map trafBytes).flatten).length)
          ++ u32be 0x6d6f6f66 ++ mfhdBytes (moofAssigned tracks seqNum).header).length
        + (trafListLen ((moofAssigned tracks seqNum).tracks.take i)
          + (8 + (tfhdBytes ((moofAssigned tracks seqNum).tracks.getD i default).header).length
            + (tfdtBytes ((moofAssigned tracks seqNum).tracks.getD i default).decodeTime).length + 16)) := by
    simp only [dataOffsetPos, List.length_append, u32be_length]
    omega
  rw [hshape, hpos, hread, hgetD, u32_u32]

theorem payload_flatten_drop (tracks : List fragmentWithData) :
    ∀ i, ((tracks.map payloadBytes).flatten).drop (sumPayload (tracks.take i))
      = ((tracks.drop i).map payloadBytes).flatten := by
  induction tracks with
  | nil => intro i; simp [sumPayload]
  | cons t rest ih =>
    intro i
    cases i with
    | zero => simp [sumPayload]
    | succ j =>
      simp only [List.take_succ_cons, sumPayload_cons, List.map_cons, List.flatten_cons,
        List.drop_succ_cons]
      rw [← payloadBytes_length t, List.drop_append]
      exact ih j

theorem writeFragment_drop (tracks : List fragmentWithData) (seqNum : Nat) (i : Nat) :
    ((writeFragment tracks seqNum).1).drop
        (dataBaseOf tracks seqNum + sumPayload (tracks.take i))
      = ((tracks.drop i).map payloadBytes).flatten := by
  rw [writeFragment_out]
  have hblen : (moofBytes (moofAssigned tracks seqNum)
      ++ u32be (u32 (sumPayload tracks + 8)) ++ u32be mdatTag).length
      = dataBaseOf tracks seqNum := by
    simp only [List.length_append, u32be_length]
    have h := moofAssigned_len tracks seqNum
    simp only [moofLen] at h
    rw [h]
    simp only [dataBaseOf, moofLen]
  rw [← hblen, List.drop_append]
  exact payload_flatten_drop tracks i

/-- C2 (amended): provided every track's run carries the data-offset
flag (as every fragment built by makeFragment does) and the total
dataBase + payload + 8 fits in 32 bits, writeFragment emits exactly
dataBase + total payload bytes, laid out as the movie-fragment box,
the 4-byte mdat size (reading back as total payload + 8), the 4-byte
mdat tag, then each track's payload in order; and each track's
serialized data-offset field reads back as the actual byte position of
that track's first payload byte in the output.  Without the 32-bit
provisos the stored fields are the uint32 truncations. -/
theorem c2_writeFragment_layout (tracks : List fragmentWithData) (seqNum : Nat)
    (hflag : ∀ t ∈ tracks, t.trackFrag.run.flags.testBit 0 = true)
    (hfit : dataBaseOf tracks seqNum + sumPayload tracks + 8 < 4294967296) :
    (writeFragment tracks seqNum).1.length = dataBaseOf tracks seqNum + sumPayload tracks
    ∧ readU32BE (writeFragment tracks seqNum).1 (dataBaseOf tracks seqNum - 8)
        = sumPayload tracks + 8
    ∧ (writeFragment tracks seqNum).1
        = moofBytes (moofAssigned tracks seqNum)
          ++ u32be (sumPayload tracks + 8) ++ u32be mdatTag
          ++ (tracks.map payloadBytes).flatten
    ∧ ∀ i, i < tracks.length →
        readU32BE (writeFragment tracks seqNum).1 (dataOffsetPos (moofAssigned tracks seqNum) i)
          = dataBaseOf tracks seqNum + sumPayload (tracks.take i)
        ∧ ((writeFragment tracks seqNum).1).drop
            (dataBaseOf tracks seqNum + sumPayload (tracks.take i))
          = ((tracks.drop i).map payloadBytes).flatten := by
  have hsum8 : u32 (sumPayload tracks + 8) = sumPayload tracks + 8 := by
    simp only [u32]
    omega
  refine ⟨writeFragment_length tracks seqNum, ?_, ?_, ?_⟩
  · rw [writeFragment_mdat_read, hsum8]
  · rw [writeFragment_out, hsum8]
  · intro i hi
    have hmem : tracks.getD i default ∈ tracks := by
      rw [List.getD_eq_getElem tracks default hi]
      exact List.getElem_mem hi
    have hfl : ((tracks.getD i default).trackFrag).run.flags.testBit 0 = true :=
      hflag _ hmem
    have htake : sumPayload tracks
        = sumPayload (tracks.take i) + sumPayload (tracks.drop i) := by
      conv_lhs => rw [← List.take_append_drop i tracks]
      simp [sumPayload, List.map_append, List.sum_append]
    constructor
    · rw [writeFragment_offset_read tracks seqNum i hi hfl]
      simp only [u32]
      omega
    · exact writeFragment_drop tracks seqNum i

/-- C2 counterexample: with a single track whose payload is 2^32
bytes, the 4-byte mdat size field reads back as 8, not the claimed
total payload + 8 = 2^32 + 8: the stored value is the 32-bit
truncation. -/
theorem c2_mdat_truncation_counterexample :
    sumPayload [hugeTrack] = 4294967296
    ∧ readU32BE (writeFragment [hugeTrack] 1).1 (dataBaseOf [hugeTrack] 1 - 8) = 8
    ∧ (8 : Nat) ≠ 4294967296 + 8 := by
  have h1 : payloadLen hugeTrack = 4294967296 := by
    simp only [payloadLen, hugeTrack, List.map_cons, List.map_nil, List.sum_cons,
      List.sum_nil, List.length_replicate, Nat.add_zero]
  have hs : sumPayload [hugeTrack] = 4294967296 := by
    simp only [sumPayload, List.map_cons, List.map_nil, List.sum_cons, List.sum_nil, h1,
      Nat.add_zero]
  refine ⟨hs, ?_, by norm_num⟩
  rw [writeFragment_mdat_read, hs]
  simp only [u32]

/-- C2 witness: the amended layout theorem applied to a concrete
one-track fragment with a 5-byte payload. -/
theorem c2_writeFragment_layout_witness :
    (writeFragment [smallTrack] 7).1.length = dataBaseOf [smallTrack] 7 + sumPayload [smallTrack]
    ∧ readU32BE (writeFragment [smallTrack] 7).1 (dataBaseOf [smallTrack] 7 - 8)
        = sumPayload [smallTrack] + 8 :=
  ⟨(c2_writeFragment_layout [smallTrack] 7 (by decide) (by decide)).1,
   (c2_writeFragment_layout [smallTrack] 7 (by decide) (by decide)).2.1⟩
